import Mathlib

/-!
Verification development for the documentation validator
(`scripts/docs/validate_docs.py`).

The Python source is shallowly embedded below.  Modelling conventions:

* Strings are Lean `String`; regular expressions over ASCII classes are
  translated into explicit character scans (Python `\w`, `\s`, `lower()`
  are modelled over their ASCII meaning, which covers the whole corpus
  format).
* Lines are obtained by splitting on the newline character; the model of
  `str.splitlines` handles only `\n` separators, matching the UTF-8
  corpus format the tool defines.
* The file system is modelled as the list of existing file paths, each
  path a list of components below the repository root; a directory
  exists when it is a proper prefix of some file.  `Path.resolve` is
  modelled as component normalisation (no symlinks).
* Subprocess invocations (`mmdc`, `swagger-cli`), the JSON library used
  by the OpenAPI fallback check, the system clock and the environment
  overrides are modelled as oracle fields of an `Env` record, since the
  source treats them as external collaborators.
* Python dictionaries holding frontmatter are association lists with
  insert-or-replace semantics, which preserves insertion behaviour and
  key lookup exactly.
-/

namespace DocsValidate

/-- Python scalar values that the frontmatter parser can produce:
strings, booleans and (nested) lists. -/
inductive Value where
  | str (s : String)
  | bool (b : Bool)
  | list (items : List Value)

/-- One reported problem, mirroring the `Problem` dataclass. -/
structure Problem where
  check : String
  path : String
  message : String
  line : Option Nat := none
deriving DecidableEq, Repr

/-- One raw link reference, mirroring the `LinkRef` dataclass. -/
structure LinkRef where
  target : String
  line : Nat
deriving DecidableEq, Repr

/-- Python whitespace class `\s` restricted to ASCII:
space, tab, newline, carriage return, vertical tab, form feed. -/
def isPyWs (c : Char) : Bool :=
  c = ' ' || c = '\t' || c = '\n' || c = '\r' || c = Char.ofNat 11 || c = Char.ofNat 12

/-- ASCII word character class `\w`: letters, digits, underscore. -/
def isWordChar (c : Char) : Bool :=
  c.isAlphanum || c = '_'

/-- Character class `[A-Za-z0-9_-]` used by the fence language tag,
frontmatter keys and ADR name bodies. -/
def isKeyChar (c : Char) : Bool :=
  c.isAlphanum || c = '_' || c = '-'

/-- ASCII lower casing of one character, the model of `str.lower` per
character. -/
def lowerChar (c : Char) : Char :=
  if 65 ≤ c.toNat ∧ c.toNat ≤ 90 then Char.ofNat (c.toNat + 32) else c

/-- ASCII lower casing of a string. -/
def lowerStr (s : String) : String :=
  ⟨s.data.map lowerChar⟩

/-- Drop trailing characters satisfying `p`. -/
def dropTrailing (p : Char → Bool) (l : List Char) : List Char :=
  (l.reverse.dropWhile p).reverse

/-- Model of Python `str.strip()` on character lists. -/
def pyStripChars (l : List Char) : List Char :=
  dropTrailing isPyWs (l.dropWhile isPyWs)

/-- Model of Python `str.strip()`. -/
def pyStrip (s : String) : String :=
  ⟨pyStripChars s.data⟩

/-- Model of Python `str.rstrip()`. -/
def pyRstrip (s : String) : String :=
  ⟨dropTrailing isPyWs s.data⟩

/-- Model of `str.startswith`. -/
def pyStartsWith (s pre : String) : Bool :=
  s.data.take pre.data.length == pre.data

/-- Model of `str.endswith`. -/
def pyEndsWith (s suf : String) : Bool :=
  s.data.reverse.take suf.data.length == suf.data.reverse

/-- Split on a separator character keeping empty segments, the model of
`str.split(sep)` for a one-character separator. -/
def splitOnCharGo (sep : Char) (buf : List Char) : List Char → List String
  | [] => [⟨buf⟩]
  | c :: rest =>
    if c = sep then ⟨buf⟩ :: splitOnCharGo sep [] rest
    else splitOnCharGo sep (buf ++ [c]) rest

/-- Split a string on a separator character. -/
def splitOnChar (sep : Char) (s : String) : List String :=
  splitOnCharGo sep [] s.data

/-- Model of Python `str.splitlines()` for `\n`-separated text. -/
def pySplitlines (s : String) : List String :=
  if s.data = [] then []
  else
    let parts := splitOnChar '\n' s
    if parts.getLast? = some "" then parts.dropLast else parts

/-- Join lines back with newlines, the model of `"\n".join(...)`. -/
def joinLines (lines : List String) : String :=
  String.intercalate "\n" lines

/-- Model of `strip_quotes`: drop one pair of matching single or double
quotes around an already stripped value. -/
def strip_quotes (v0 : String) : String :=
  let v := pyStrip v0
  let l := v.data
  match l.head?, l.getLast? with
  | some a, some b =>
      if 2 ≤ l.length ∧ a = b ∧ (a = '\'' ∨ a = '"') then ⟨(l.drop 1).dropLast⟩ else v
  | _, _ => v

/-- Model of `parse_scalar`: empty string, booleans `true`/`false`
(case insensitive), otherwise a quote-stripped string. -/
def parse_scalar (v0 : String) : Value :=
  let v := pyStrip v0
  if v = "" then .str ""
  else if lowerStr v = "true" then .bool true
  else if lowerStr v = "false" then .bool false
  else .str (strip_quotes v)

/-- Comma splitter of `parse_inline_list`, tracking an open quote; each
item is stripped when closed, exactly as the Python loop does. -/
def inlineSplitGo (quote : Option Char) (buf : List Char) (acc : List String) :
    List Char → List String
  | [] => if buf = [] then acc else acc ++ [pyStrip ⟨buf⟩]
  | ch :: rest =>
    match quote with
    | some q =>
        if ch = q then inlineSplitGo none (buf ++ [ch]) acc rest
        else inlineSplitGo (some q) (buf ++ [ch]) acc rest
    | none =>
        if ch = '\'' ∨ ch = '"' then inlineSplitGo (some ch) (buf ++ [ch]) acc rest
        else if ch = ',' then inlineSplitGo none [] (acc ++ [pyStrip ⟨buf⟩]) rest
        else inlineSplitGo none (buf ++ [ch]) acc rest

/-- Model of `parse_inline_list` on a `[...]` bracketed value. -/
def parse_inline_list (v : String) : List Value :=
  let inner := pyStrip ⟨(v.data.drop 1).dropLast⟩
  if inner = "" then []
  else
    (((inlineSplitGo none [] [] inner.data).filter fun s => pyStrip s ≠ "").map parse_scalar)

/-- Frontmatter mapping: a Python dict as an association list with
insert-or-replace semantics. -/
abbrev Fm := List (String × Value)

/-- Dict lookup. -/
def dictGet (d : Fm) (k : String) : Option Value :=
  match d with
  | [] => none
  | (k0, v0) :: rest => if k0 = k then some v0 else dictGet rest k

/-- Dict insert: replace in place when the key exists, append otherwise
(Python dict assignment). -/
def dictInsert (d : Fm) (k : String) (v : Value) : Fm :=
  match d with
  | [] => [(k, v)]
  | (k0, v0) :: rest => if k0 = k then (k, v) :: rest else (k0, v0) :: dictInsert rest k v

/-- Classification of one frontmatter line, encoding the ordered regex
tests of `parse_yamlish_frontmatter` (after `rstrip`): blank, comment,
list item `- value`, key line `key: value`, otherwise unsupported. -/
inductive LineKind where
  | blank
  | comment
  | listItem (v : String)
  | keyLine (k v : String)
  | unsupported
deriving DecidableEq, Repr

/-- Match of `^\s*-\s+(.*)$` against a right-stripped line. -/
def listItemMatch (line : String) : Option String :=
  match line.data.dropWhile isPyWs with
  | '-' :: rest =>
    match rest with
    | [] => none
    | c :: _ => if isPyWs c then some ⟨rest.dropWhile isPyWs⟩ else none
  | _ => none

/-- Match of `^([A-Za-z0-9_-]+):\s*(.*)$` against a right-stripped line. -/
def keyMatch (line : String) : Option (String × String) :=
  let l := line.data
  let ks := l.takeWhile isKeyChar
  if ks = [] then none
  else
    match l.drop ks.length with
    | ':' :: rest => some (⟨ks⟩, ⟨rest.dropWhile isPyWs⟩)
    | _ => none

/-- Classify one raw frontmatter line the way the parser loop does. -/
def classifyLine (raw : String) : LineKind :=
  let line := pyRstrip raw
  if pyStrip line = "" then .blank
  else if (line.data.dropWhile isPyWs).head? = some '#' then .comment
  else
    match listItemMatch line with
    | some v => .listItem v
    | none =>
      match keyMatch line with
      | some (k, v) => .keyLine k v
      | none => .unsupported

/-- Error message for a list item with no open list key. -/
def errOrphan (idx : Nat) : String :=
  "frontmatter line " ++ toString idx ++ ": list item without list key"

/-- Error message for an unsupported frontmatter line. -/
def errUnsupported (idx : Nat) (line : String) : String :=
  "frontmatter line " ++ toString idx ++ ": unsupported syntax `" ++ line ++ "`"

/-- Parser state of `parse_yamlish_frontmatter`: the mapping so far,
accumulated errors, and the currently open list key. -/
structure FmState where
  data : Fm
  errors : List String
  clk : Option String

/-- One loop iteration of `parse_yamlish_frontmatter` for the line at
(1-based) index `idx`. -/
def fmStep (idx : Nat) (st : FmState) (raw : String) : FmState :=
  match classifyLine raw with
  | .blank => st
  | .comment => st
  | .listItem v =>
    match st.clk with
    | none => { st with errors := st.errors ++ [errOrphan idx] }
    | some k =>
      match dictGet st.data k with
      | some (.list items) =>
          { st with data := dictInsert st.data k (.list (items ++ [parse_scalar v])) }
      | _ => { st with errors := st.errors ++ [errOrphan idx] }
  | .keyLine k v =>
    if v = "" then { st with data := dictInsert st.data k (.list []), clk := some k }
    else if pyStartsWith v "[" && pyEndsWith v "]" then
      { st with data := dictInsert st.data k (.list (parse_inline_list v)), clk := none }
    else
      { st with data := dictInsert st.data k (parse_scalar v), clk := none }
  | .unsupported =>
      { st with errors := st.errors ++ [errUnsupported idx (pyRstrip raw)], clk := none }

/-- Run the frontmatter parser loop from a given state and line index. -/
def fmGo (st : FmState) (idx : Nat) : List String → FmState
  | [] => st
  | l :: ls => fmGo (fmStep idx st l) (idx + 1) ls

/-- Model of `parse_yamlish_frontmatter` on a list of lines. -/
def parseYamlishLines (lines : List String) : Fm × List String :=
  let st := fmGo ⟨[], [], none⟩ 1 lines
  (st.data, st.errors)

/-- Model of `parse_yamlish_frontmatter`. -/
def parse_yamlish_frontmatter (raw : String) : Fm × List String :=
  parseYamlishLines (pySplitlines raw)

/-- First index at or after which a line strips to the delimiter, used
for the closing `---` search in `split_frontmatter`. -/
def findEndDelim (lines : List String) (i : Nat) : Option Nat :=
  match lines with
  | [] => none
  | l :: rest => if pyStrip l = "---" then some i else findEndDelim rest (i + 1)

/-- Model of `split_frontmatter`: locate the delimited block, parse it,
return `(mapping, body, errors)`. -/
def split_frontmatter (text : String) : Fm × String × List String :=
  if ¬ pyStartsWith text "---" then ([], text, ["missing frontmatter start delimiter"])
  else
    let lines := pySplitlines text
    match lines with
    | [] => ([], text, ["invalid frontmatter start delimiter"])
    | l0 :: rest =>
      if pyStrip l0 ≠ "---" then ([], text, ["invalid frontmatter start delimiter"])
      else
        match findEndDelim rest 1 with
        | none => ([], text, ["missing frontmatter end delimiter"])
        | some endIdx =>
          let rawFm := joinLines ((lines.drop 1).take (endIdx - 1))
          let body := joinLines (lines.drop (endIdx + 1))
          let pr := parse_yamlish_frontmatter rawFm
          (pr.1, body, pr.2)

/-- Match of the fence marker `^```([A-Za-z0-9_-]*)\s*$`. -/
def isFenceLine (line : String) : Bool :=
  let l := line.data
  l.take 3 = ['`', '`', '`'] && ((l.drop 3).dropWhile isKeyChar).all isPyWs

/-- Language tag captured by the fence marker regular expression. -/
def fenceLangOf (line : String) : String :=
  ⟨(line.data.drop 3).takeWhile isKeyChar⟩

/-- Match of the heading pattern `^(#{1,6})\s+(.*)$`, already combined
with the `.strip()` the extractor applies to the captured text. -/
def headerMatch (line : String) : Option String :=
  let l := line.data
  let n := (l.takeWhile fun c => c = '#').length
  if 1 ≤ n ∧ n ≤ 6 then
    match l.drop n with
    | [] => none
    | c :: rest => if isPyWs c then some (pyStrip ⟨c :: rest⟩) else none
  else none

/-- Replace every maximal run of `isRun` characters by the single
character `out`; `prevRun` records whether the previous character was in
a run.  Instantiated for `\s+ -> "-"` and `-{2,} -> "-"`. -/
def collapseRunsGo (isRun : Char → Bool) (out : Char) (prevRun : Bool) :
    List Char → List Char
  | [] => []
  | c :: cs =>
    if isRun c then
      if prevRun then collapseRunsGo isRun out true cs
      else out :: collapseRunsGo isRun out true cs
    else c :: collapseRunsGo isRun out false cs

/-- Model of `slugify_heading` on character lists: strip, lower case,
drop backticks, keep `[\w\s-]`, turn whitespace runs into hyphens,
collapse hyphen runs, trim hyphens. -/
def slugifyChars (l0 : List Char) : List Char :=
  let a := (pyStripChars l0).map lowerChar
  let b := a.filter fun c => c ≠ '`'
  let c := b.filter fun c => isWordChar c || isPyWs c || c = '-'
  let d := collapseRunsGo isPyWs '-' false c
  let e := collapseRunsGo (fun c => c = '-') '-' false d
  dropTrailing (fun c => c = '-') (e.dropWhile fun c => c = '-')

/-- Model of `slugify_heading`. -/
def slugify_heading (s : String) : String :=
  ⟨slugifyChars s.data⟩

/-- Python set insertion modelled on a duplicate-free list. -/
def setInsert (l : List String) (x : String) : List String :=
  if x ∈ l then l else l ++ [x]

/-- State of the `extract_headings_and_anchors` loop. -/
structure HAState where
  inFence : Bool
  headings : List String
  counts : String → Nat
  anchors : List String

/-- One loop iteration of `extract_headings_and_anchors`. -/
def haStep (st : HAState) (line : String) : HAState :=
  if isFenceLine line then { st with inFence := !st.inFence }
  else if st.inFence then st
  else
    match headerMatch line with
    | none => st
    | some text =>
      let st1 := { st with headings := st.headings ++ [text] }
      let base := slugify_heading text
      if base = "" then st1
      else
        let count := st1.counts base
        { st1 with
          counts := fun k => if k = base then st1.counts base + 1 else st1.counts k,
          anchors := setInsert st1.anchors
            (if count = 0 then base else base ++ "-" ++ toString count) }

/-- Run the heading extractor loop. -/
def haGo (st : HAState) : List String → HAState
  | [] => st
  | l :: ls => haGo (haStep st l) ls

/-- Model of `extract_headings_and_anchors` on a list of body lines. -/
def extractHeadingsAnchorsFromLines (lines : List String) : List String × List String :=
  let st := haGo ⟨false, [], fun _ => 0, []⟩ lines
  (st.headings, st.anchors)

/-- Model of `extract_headings_and_anchors`. -/
def extract_headings_and_anchors (body : String) : List String × List String :=
  extractHeadingsAnchorsFromLines (pySplitlines body)

/-- Scanner for the inline-link pattern `(?<!!)\[[^\]]+\]\(([^)]+)\)`:
at an opening bracket, read the bracket label up to the first `]`, then
`](`, then the target up to the first `)`.  Returns the parenthesised
target and the remaining characters. -/
def tryLink (rest : List Char) : Option (List Char × List Char) :=
  if (rest.takeWhile fun c => c ≠ ']') = [] then none
  else
    match rest.dropWhile (fun c => c ≠ ']') with
    | ']' :: '(' :: afterParen =>
      if (afterParen.takeWhile fun c => c ≠ ')') = [] then none
      else
        match afterParen.dropWhile (fun c => c ≠ ')') with
        | ')' :: afterClose => some (afterParen.takeWhile (fun c => c ≠ ')'), afterClose)
        | _ => none
    | _ => none

/-- Left-to-right non-overlapping scan of all inline-link matches in one
line, with the one-character negative lookbehind for `!`. -/
def scanLinks (prev : Option Char) (l : List Char) : List (List Char) :=
  match l with
  | [] => []
  | c :: rest =>
    if c = '[' ∧ prev ≠ some '!' then
      match h : tryLink rest with
      | some (target, rest2) => target :: scanLinks (some ')') rest2
      | none => scanLinks (some c) rest
    else scanLinks (some c) rest
  termination_by l.length
  decreasing_by
    · have hlt : rest2.length < rest.length := by
        unfold tryLink at h
        split at h
        · simp at h
        · split at h
          next x ap heq =>
            split at h
            · simp at h
            · split at h
              next y ac heq2 =>
                simp only [Option.some.injEq, Prod.mk.injEq] at h
                obtain ⟨-, h2⟩ := h
                subst h2
                have a1 := congrArg List.length heq
                have a2 := congrArg List.length heq2
                simp only [List.length_cons] at a1 a2
                have b1 : (rest.dropWhile fun c => c ≠ ']').length ≤ rest.length :=
                  (List.dropWhile_suffix _).length_le
                have b2 : (ap.dropWhile fun c => c ≠ ')').length ≤ ap.length :=
                  (List.dropWhile_suffix _).length_le
                omega
              · simp at h
          next => simp at h
      simp only [List.length_cons]
      omega
    · simp
    · simp

/-- All inline-link targets found in one line, in order. -/
def lineLinkTargets (line : String) : List String :=
  (scanLinks none line.data).map fun t => ⟨t⟩

/-- Post-processing of one matched target in `extract_links`: strip,
drop a space-separated title unless angle-bracket wrapped, strip angle
brackets. -/
def cleanTarget (raw : String) : String :=
  let t := pyStrip raw
  let t :=
    if t.data.contains ' ' && ¬ pyStartsWith t "<" then
      match splitOnChar ' ' t with
      | [] => t
      | h :: _ => h
    else t
  if pyStartsWith t "<" && pyEndsWith t ">" then ⟨(t.data.drop 1).dropLast⟩ else t

/-- Link extractor loop with explicit fence flag and line number. -/
def linksGo (inFence : Bool) (n : Nat) : List String → List LinkRef
  | [] => []
  | line :: rest =>
    if isFenceLine line then linksGo (!inFence) (n + 1) rest
    else if inFence then linksGo inFence (n + 1) rest
    else
      ((lineLinkTargets line).map fun t => LinkRef.mk (cleanTarget t) n)
        ++ linksGo inFence (n + 1) rest

/-- Model of `extract_links` on a list of body lines. -/
def extractLinksFromLines (lines : List String) : List LinkRef :=
  linksGo false 1 lines

/-- Model of `extract_links`. -/
def extract_links (body : String) : List LinkRef :=
  extractLinksFromLines (pySplitlines body)

/-- Model of `normalize_heading`: strip and collapse inner whitespace to
single spaces. -/
def normalize_heading (s : String) : String :=
  ⟨collapseRunsGo isPyWs ' ' false (pyStripChars s.data)⟩

/-- The heading texts the extractor appends, with the fence discipline
factored out of the loop. -/
def headerTexts (inF : Bool) : List String → List String
  | [] => []
  | l :: ls =>
    if isFenceLine l then headerTexts (!inF) ls
    else if inF then headerTexts inF ls
    else
      match headerMatch l with
      | none => headerTexts inF ls
      | some t => t :: headerTexts inF ls

/-- The anchor names assigned to a run of heading texts, tracking the
per-slug occurrence counts exactly as the extractor loop does. -/
def anchorTrace (counts : String → Nat) : List String → List String
  | [] => []
  | t :: ts =>
    if slugify_heading t = "" then anchorTrace counts ts
    else
      (if counts (slugify_heading t) = 0 then slugify_heading t
       else slugify_heading t ++ "-" ++ toString (counts (slugify_heading t)))
        :: anchorTrace
            (fun k => if k = slugify_heading t then counts (slugify_heading t) + 1 else counts k)
            ts

/-- The per-slug occurrence counts after a run of heading texts. -/
def countsAfter (counts : String → Nat) : List String → String → Nat
  | [] => counts
  | t :: ts =>
    if slugify_heading t = "" then countsAfter counts ts
    else
      countsAfter
        (fun k => if k = slugify_heading t then counts (slugify_heading t) + 1 else counts k)
        ts

/-- A proleptic Gregorian calendar date, as `datetime.date`. -/
structure Date where
  y : Nat
  m : Nat
  d : Nat
deriving DecidableEq, Repr

/-- Gregorian leap year test. -/
def isLeapYear (y : Nat) : Bool :=
  y % 4 = 0 && (y % 100 ≠ 0 || y % 400 = 0)

/-- Days in a month of a given year. -/
def daysInMonth (y m : Nat) : Nat :=
  match m with
  | 1 => 31 | 2 => if isLeapYear y then 29 else 28 | 3 => 31
  | 4 => 30 | 5 => 31 | 6 => 30 | 7 => 31 | 8 => 31
  | 9 => 30 | 10 => 31 | 11 => 30 | 12 => 31
  | _ => 0

/-- Days in the same year before month `m`. -/
def daysBeforeMonth (y m : Nat) : Nat :=
  (List.range (m - 1)).foldl (fun acc i => acc + daysInMonth y (i + 1)) 0

/-- Model of `datetime.date.toordinal`: day count from 0001-01-01 = 1,
so date subtraction is ordinal subtraction. -/
def dateOrdinal (d : Date) : Nat :=
  365 * (d.y - 1) + (d.y - 1) / 4 - (d.y - 1) / 100 + (d.y - 1) / 400
    + daysBeforeMonth d.y d.m + d.d

/-- Numeric value of a decimal digit character. -/
def digitVal (c : Char) : Nat := c.toNat - 48

/-- Model of `parse_review_date`, with `date.fromisoformat` modelled on
the dashed `YYYY-MM-DD` form the corpus uses (an invalid date gives
`None`). -/
def parse_review_date (s : String) : Option Date :=
  match s.data with
  | [y1, y2, y3, y4, h1, m1, m2, h2, d1, d2] =>
    if h1 = '-' ∧ h2 = '-' ∧ ([y1, y2, y3, y4, m1, m2, d1, d2].all Char.isDigit) then
      let y := ((digitVal y1 * 10 + digitVal y2) * 10 + digitVal y3) * 10 + digitVal y4
      let m := digitVal m1 * 10 + digitVal m2
      let d := digitVal d1 * 10 + digitVal d2
      if 1 ≤ y ∧ y ≤ 9999 ∧ 1 ≤ m ∧ m ≤ 12 ∧ 1 ≤ d ∧ d ≤ daysInMonth y m then
        some ⟨y, m, d⟩
      else none
    else none
  | _ => none

/-- The contract configuration, loaded once from static data.  The
`stale_review_days` field already carries the JSON default 180. -/
structure Contracts where
  required_docs_directories : List String := []
  required_frontmatter : List String := []
  allowed_categories : List String := []
  allowed_statuses : List String := []
  allowed_owners : List String := []
  diataxis_category_by_folder : List (String × String) := []
  root_docs_allowed_categories : List String := []
  stale_review_days : Int := 180
  sop_required_headings : List String := []

/-- Result of the `json.load` oracle used by the OpenAPI fallback. -/
inductive JsonLoad where
  | invalid (msg : String)
  | notDict
  | dict (keys : List String)

/-- External environment of one run: the file system as the list of
existing paths (components below the repository root), the resolved
current date (the `DOCS_TODAY` override already applied), the
`DOCS_STALE_REVIEW_DAYS` override, and the external-tool oracles.  A
renderer oracle returns `none` on success and the last error line on
failure, mirroring the subprocess bridge. -/
structure Env where
  fs : List (List String) := []
  today : Date := ⟨2024, 1, 1⟩
  staleOverride : Option Int := none
  mmdFiles : List (String × String) := []
  mmdc : Option (String → Option String) := none
  openapiSpecs : List (String × String × String) := []
  swaggerCli : Option (String → Option String) := none
  jsonLoad : String → JsonLoad := fun _ => .notDict
  now : String := ""

/-- Model of `current_date` (override already resolved in `Env`). -/
def current_date (env : Env) : Date := env.today

/-- The staleness threshold: environment override, else contract value. -/
def staleDaysOf (env : Env) (ctr : Contracts) : Int :=
  env.staleOverride.getD ctr.stale_review_days

/-- One loaded document, mirroring the `DocRecord` dataclass; `path` is
the component list below the repository root. -/
structure DocRecord where
  path : List String
  rel_path : String
  text : String
  frontmatter : Fm
  body : String
  headings : List String
  anchors : List String
  links : List LinkRef

/-- Split a path string on `/`, dropping empty and `.` components as
`pathlib.PurePath` construction does. -/
def splitPath (s : String) : List String :=
  (splitOnChar '/' s).filter fun c => c ≠ "" && c ≠ "."

/-- Append components to a base path, resolving `..` by popping; the
model of `/` followed by `Path.resolve` with no symlinks. -/
def normalizeJoin (base comps : List String) : List String :=
  comps.foldl (fun acc c => if c = ".." then acc.dropLast else acc ++ [c]) base

/-- Does the path exist in the modelled file system?  `Path.exists` is
an operating-system query, modelled by membership in the list of
existing paths (file and directory paths are both listed). -/
def pexists (fs : List (List String)) (p : List String) : Bool :=
  fs.any fun f => f == p

/-- Model of `str.lstrip("/")`. -/
def lstripSlash (s : String) : String :=
  ⟨s.data.dropWhile fun c => c = '/'⟩

/-- File name extension per `pathlib`: the part from the last dot, when
that dot is neither the first nor the last character of the name. -/
def nameSuffix (name : String) : String :=
  let l := name.data
  let tail := l.reverse.takeWhile fun c => c ≠ '.'
  if tail.length = l.length then ""
  else if l.length - 1 - tail.length = 0 ∨ tail.length = 0 then ""
  else ⟨'.' :: tail.reverse⟩

/-- Extension of the last component of a path. -/
def pathSuffix (p : List String) : String :=
  match p.getLast? with
  | none => ""
  | some n => nameSuffix n

/-- Model of `with_suffix(".md")` on a path whose suffix is empty. -/
def withMdSuffix (p : List String) : List String :=
  match p.getLast? with
  | none => p
  | some n => p.dropLast ++ [n ++ ".md"]

/-- Character class of the URI scheme pattern body. -/
def isSchemeChar (c : Char) : Bool :=
  c.isAlphanum || c = '+' || c = '.' || c = '-'

/-- Match of `^[a-zA-Z][a-zA-Z0-9+.-]*:`. -/
def schemeMatch (s : String) : Bool :=
  match s.data with
  | [] => false
  | c :: rest => c.isAlpha && ((rest.dropWhile isSchemeChar).head? == some ':')

/-- Model of `target.partition("#")` keeping the pieces around the first
`#`. -/
def partitionHash (s : String) : String × String :=
  match splitOnChar '#' s with
  | [] => (s, "")
  | h :: t => if t = [] then (s, "") else (h, String.intercalate "#" t)

/-- Display of a path in diagnostics (rendered below the repository
root; the Python original prints the absolute form). -/
def pathDisplay (p : List String) : String :=
  String.intercalate "/" p

/-- Pre-fallback resolution of a non-empty path part: corpus-rooted
parts resolve below the repository root, relative parts against the
directory of the source document. -/
def rawResolved (recordPath : List String) (pathPart : String) : List String :=
  if pyStartsWith pathPart "/docs/" then normalizeJoin [] (splitPath (lstripSlash pathPart))
  else if pyStartsWith pathPart "/" then normalizeJoin [] (splitPath (lstripSlash pathPart))
  else normalizeJoin recordPath.dropLast (splitPath pathPart)

/-- Existence fallback of `resolve_markdown_link`: keep an existing
path; for an extensionless missing path try `.md` and then `index.md`;
otherwise return the missing path unchanged. -/
def resolveWithFallback (fs : List (List String)) (resolved : List String) : List String :=
  if pexists fs resolved then resolved
  else if pathSuffix resolved = "" then
    let mdCandidate := withMdSuffix resolved
    if pexists fs mdCandidate then mdCandidate
    else
      let indexCandidate := resolved ++ ["index.md"]
      if pexists fs indexCandidate then indexCandidate
      else resolved
  else resolved

/-- Model of `resolve_markdown_link`: returns
`(resolved_path, anchor, skip_reason)`. -/
def resolve_markdown_link (fs : List (List String)) (recordPath : List String)
    (target : String) : Option (List String) × Option String × Option String :=
  if target = "" || pyStartsWith target "?" then (none, none, some "query-only link")
  else if schemeMatch target then (none, none, some "external link")
  else if pyStartsWith target "//" then (none, none, some "network-path link")
  else
    let pp := partitionHash target
    let pathPart := pp.1
    let anchorOpt : Option String := if pp.2 = "" then none else some pp.2
    if pathPart ≠ "" && pathPart.data.contains '?' then (none, anchorOpt, some "route/query link")
    else if pyStartsWith pathPart "/" && ¬ pyStartsWith pathPart "/docs/" then
      (none, anchorOpt, some "site route")
    else if pathPart = "" then (some recordPath, anchorOpt, none)
    else (some (resolveWithFallback fs (rawResolved recordPath pathPart)), anchorOpt, none)

/-- Broken-link diagnostic message. -/
def brokenMsg (target : String) (resolved : List String) : String :=
  "broken link target `" ++ target ++ "` (resolved `" ++ pathDisplay resolved ++ "`)"

/-- Missing-anchor diagnostic message. -/
def anchorMissingMsg (anchor rel : String) : String :=
  "missing anchor `#" ++ anchor ++ "` in `" ++ rel ++ "`"

/-- Problems the link check produces for one link of one record,
mirroring the body of the `validate_links` inner loop.  The anchor cache
keyed by resolved path keeps the last record for a path, hence the
reversed lookup. -/
def linkProblems (records : List DocRecord) (fs : List (List String))
    (record : DocRecord) (link : LinkRef) : List Problem :=
  match resolve_markdown_link fs record.path link.target with
  | (_, _, some _) => []
  | (none, _, none) => []
  | (some resolved, anchorOpt, none) =>
    if ¬ pexists fs resolved then
      [⟨"links", record.rel_path, brokenMsg link.target resolved, some link.line⟩]
    else
      match anchorOpt with
      | none => []
      | some anchor =>
        if lowerStr (pathSuffix resolved) = ".md" then
          match records.reverse.find? (fun r2 => r2.path = resolved) with
          | none => []
          | some r2 =>
            if anchor ∈ r2.anchors then []
            else [⟨"links", record.rel_path,
                   anchorMissingMsg anchor (pathDisplay resolved), some link.line⟩]
        else []

/-- Model of `validate_links`. -/
def validate_links (records : List DocRecord) (fs : List (List String)) : List Problem :=
  records.flatMap fun r => r.links.flatMap (linkProblems records fs r)

/-- Model of `validate_structure`. -/
def validate_structure (ctr : Contracts) (env : Env) : List Problem :=
  ctr.required_docs_directories.filterMap fun d =>
    if pexists env.fs ("docs" :: splitPath d) then none
    else some ⟨"structure", "docs/" ++ d, "required directory is missing", none⟩

/-- Single-quoted Python repr of a short string. -/
def pyQuote (s : String) : String :=
  ⟨'\'' :: (s.data ++ ['\''])⟩

/-- Python list repr of a list of strings. -/
def pyStrListRepr (l : List String) : String :=
  "[" ++ String.intercalate ", " (l.map pyQuote) ++ "]"

/-- Lexicographic comparison of character lists by code point. -/
def charListLe : List Char → List Char → Bool
  | [], _ => true
  | _ :: _, [] => false
  | a :: as0, b :: bs0 =>
    if a.toNat < b.toNat then true
    else if b.toNat < a.toNat then false
    else charListLe as0 bs0

/-- String comparison used to model Python `sorted`. -/
def strLe (a b : String) : Bool := charListLe a.data b.data

/-- Insertion into a sorted list of strings. -/
def insertSorted (x : String) : List String → List String
  | [] => [x]
  | y :: ys => if strLe x y then x :: y :: ys else y :: insertSorted x ys

/-- Model of Python `sorted` on strings. -/
def sortStrings (l : List String) : List String :=
  l.foldr insertSorted []

/-- Deduplication, the model of building a `set` before sorting. -/
def dedupStrings (l : List String) : List String :=
  l.foldl (fun acc x => if x ∈ acc then acc else acc ++ [x]) []

/-- Python repr of a frontmatter value (used only inside messages). -/
def valueRepr : Value → String
  | .str s => pyQuote s
  | .bool b => if b then "True" else "False"
  | .list items =>
    "[" ++ String.intercalate ", " (items.attach.map fun x => valueRepr x.1) ++ "]"
  decreasing_by
    have := List.sizeOf_lt_of_mem x.2
    simp only [Value.list.sizeOf_spec]
    omega

/-- Python `str` of a frontmatter value (used only inside messages). -/
def valueStr : Value → String
  | .str s => s
  | .bool b => if b then "True" else "False"
  | .list items => valueRepr (.list items)

/-- Python f-string rendering of `fm.get(...)`, where a missing key
prints as `None`. -/
def optValueStr : Option Value → String
  | none => "None"
  | some v => valueStr v

/-- Lookup in a string-valued mapping loaded from the contract. -/
def lookupStr (m : List (String × String)) (k : String) : Option String :=
  match m with
  | [] => none
  | (k0, v) :: rest => if k0 = k then some v else lookupStr rest k

def msgMissingField (f : String) : String :=
  "missing required field `" ++ f ++ "`"

def msgTitle : String := "`title` must be a non-empty string"

def msgCategory (ctr : Contracts) : String :=
  "`category` must be one of " ++ pyStrListRepr (sortStrings (dedupStrings ctr.allowed_categories))

def msgOwner (ctr : Contracts) : String :=
  "`owner` must be one of " ++ pyStrListRepr (sortStrings (dedupStrings ctr.allowed_owners))

def msgStatus (ctr : Contracts) : String :=
  "`status` must be one of " ++ pyStrListRepr (sortStrings (dedupStrings ctr.allowed_statuses))

def msgSuperseded : String := "`superseded` docs must declare `superseded_by`"

def msgIsoString : String := "`last_reviewed` must be an ISO date string"

def msgIsoInvalid : String := "`last_reviewed` is not a valid ISO date"

def msgStale (age staleDays : Int) : String :=
  "`last_reviewed` is stale (" ++ toString age ++ " days > " ++ toString staleDays ++ ")"

def msgListField (f : String) : String :=
  "`" ++ f ++ "` must be a non-empty list"

def msgListFieldStr (f : String) : String :=
  "`" ++ f ++ "` must contain non-empty strings"

def msgRootCategory (cat : String) (ctr : Contracts) : String :=
  "root docs page category `" ++ cat ++ "` not allowed; expected one of "
    ++ pyStrListRepr (sortStrings (dedupStrings ctr.root_docs_allowed_categories))

def msgFolderCategory (catValue : Option Value) (folder expected : String) : String :=
  "category `" ++ optValueStr catValue ++ "` does not match folder `"
    ++ folder ++ "` -> `" ++ expected ++ "`"

def msgAdr : String := "ADR filename must match ADR-0000-name.md"

/-- Missing-required-field pass of `validate_frontmatter`. -/
def requiredFieldProblems (ctr : Contracts) (r : DocRecord) : List Problem :=
  ctr.required_frontmatter.filterMap fun f =>
    match dictGet r.frontmatter f with
    | some _ => none
    | none => some ⟨"frontmatter", r.rel_path, msgMissingField f, none⟩

/-- Title shape check. -/
def titleProblems (r : DocRecord) : List Problem :=
  match dictGet r.frontmatter "title" with
  | some (.str s) =>
    if pyStrip s = "" then [⟨"frontmatter", r.rel_path, msgTitle, none⟩] else []
  | _ => [⟨"frontmatter", r.rel_path, msgTitle, none⟩]

/-- Category membership check. -/
def categoryProblems (ctr : Contracts) (r : DocRecord) : List Problem :=
  match dictGet r.frontmatter "category" with
  | some (.str s) =>
    if s ∈ ctr.allowed_categories then [] else [⟨"frontmatter", r.rel_path, msgCategory ctr, none⟩]
  | _ => [⟨"frontmatter", r.rel_path, msgCategory ctr, none⟩]

/-- Owner membership check. -/
def ownerProblems (ctr : Contracts) (r : DocRecord) : List Problem :=
  match dictGet r.frontmatter "owner" with
  | some (.str s) =>
    if s ∈ ctr.allowed_owners then [] else [⟨"frontmatter", r.rel_path, msgOwner ctr, none⟩]
  | _ => [⟨"frontmatter", r.rel_path, msgOwner ctr, none⟩]

/-- Status membership check. -/
def statusProblems (ctr : Contracts) (r : DocRecord) : List Problem :=
  match dictGet r.frontmatter "status" with
  | some (.str s) =>
    if s ∈ ctr.allowed_statuses then [] else [⟨"frontmatter", r.rel_path, msgStatus ctr, none⟩]
  | _ => [⟨"frontmatter", r.rel_path, msgStatus ctr, none⟩]

/-- Superseded-successor check. -/
def supersededProblems (r : DocRecord) : List Problem :=
  match dictGet r.frontmatter "status" with
  | some (.str s) =>
    if s = "superseded" then
      match dictGet r.frontmatter "superseded_by" with
      | some (.str _) => []
      | _ => [⟨"frontmatter", r.rel_path, msgSuperseded, none⟩]
    else []
  | _ => []

/-- Review-date shape and staleness check. -/
def reviewedProblems (env : Env) (ctr : Contracts) (r : DocRecord) : List Problem :=
  match dictGet r.frontmatter "last_reviewed" with
  | some (.str s) =>
    match parse_review_date s with
    | none => [⟨"frontmatter", r.rel_path, msgIsoInvalid, none⟩]
    | some d =>
      let age : Int := (dateOrdinal (current_date env) : Int) - (dateOrdinal d : Int)
      if age > staleDaysOf env ctr then
        [⟨"frontmatter", r.rel_path, msgStale age (staleDaysOf env ctr), none⟩]
      else []
  | _ => [⟨"frontmatter", r.rel_path, msgIsoString, none⟩]

/-- Is a list element a non-empty string (after stripping)? -/
def isNonemptyStrVal : Value → Bool
  | .str s => pyStrip s ≠ ""
  | _ => false

/-- Check one designated list-valued field. -/
def listFieldProblems (f : String) (r : DocRecord) : List Problem :=
  match dictGet r.frontmatter f with
  | some (.list items) =>
    if items.isEmpty then [⟨"frontmatter", r.rel_path, msgListField f, none⟩]
    else if items.all isNonemptyStrVal then []
    else [⟨"frontmatter", r.rel_path, msgListFieldStr f, none⟩]
  | _ => [⟨"frontmatter", r.rel_path, msgListField f, none⟩]

/-- Does an ADR file name match `ADR-\d{4}[-_a-zA-Z0-9]*\.md$`? -/
def adrNameOk (name : String) : Bool :=
  let l := name.data
  l.take 4 = ['A', 'D', 'R', '-']
    && ((l.drop 4).take 4).all Char.isDigit
    && 4 ≤ (l.drop 4).length
    && (let rest := l.drop 8
        3 ≤ rest.length
          && (rest.take (rest.length - 3)).all isKeyChar
          && rest.drop (rest.length - 3) = ['.', 'm', 'd'])

/-- Taxonomy pass (diataxis and ADR naming) of `validate_frontmatter`. -/
def taxonomyProblems (ctr : Contracts) (r : DocRecord) : List Problem :=
  let relDoc := r.path.drop 1
  if relDoc.length = 1 then
    match dictGet r.frontmatter "category" with
    | some (.str c) =>
      if c ∈ ctr.root_docs_allowed_categories then []
      else [⟨"diataxis", r.rel_path, msgRootCategory c ctr, none⟩]
    | _ => []
  else
    let folder := relDoc.headD ""
    (match lookupStr ctr.diataxis_category_by_folder folder with
     | none => []
     | some expected =>
       if expected = "" then []
       else
         match dictGet r.frontmatter "category" with
         | some (.str c) =>
           if c = expected then []
           else [⟨"diataxis", r.rel_path,
                  msgFolderCategory (dictGet r.frontmatter "category") folder expected, none⟩]
         | _ => [⟨"diataxis", r.rel_path,
                  msgFolderCategory (dictGet r.frontmatter "category") folder expected, none⟩])
    ++ (if folder = "adr" ∧ ¬ adrNameOk (r.path.getLastD "") then
          [⟨"adr", r.rel_path, msgAdr, none⟩]
        else [])

/-- All problems `validate_frontmatter` reports for one record: the
required-field pass always runs; the shape and taxonomy passes run only
when the mapping is non-empty. -/
def checkRecordFrontmatter (ctr : Contracts) (env : Env) (r : DocRecord) : List Problem :=
  requiredFieldProblems ctr r ++
    (if r.frontmatter.isEmpty then []
     else
       titleProblems r ++ categoryProblems ctr r ++ ownerProblems ctr r
         ++ statusProblems ctr r ++ supersededProblems r ++ reviewedProblems env ctr r
         ++ listFieldProblems "audience" r ++ listFieldProblems "invariants" r
         ++ taxonomyProblems ctr r)

/-- Model of `validate_frontmatter`. -/
def validate_frontmatter (records : List DocRecord) (ctr : Contracts) (env : Env) :
    List Problem :=
  records.flatMap (checkRecordFrontmatter ctr env)

/-- First index of `x` in `l`, the model of `list.index`. -/
def indexFrom (l : List String) (x : String) : Option Nat :=
  match l with
  | [] => none
  | y :: ys => if y = x then some 0 else (indexFrom ys x).map (· + 1)

/-- The `validate_sop_headings` scan: walk the required headings,
searching each at or after the running position; the first failure
returns that heading. -/
def sopScan (headings : List String) : List String → Nat → Option String
  | [], _ => none
  | req :: rest, pos =>
    match indexFrom (headings.drop pos) req with
    | none => some req
    | some i => sopScan headings rest (pos + i + 1)

def msgSop (req : String) : String :=
  "missing or out-of-order heading `" ++ req ++ "`"

/-- Heading-order check for one record (only `sop` folder documents). -/
def checkSopRecord (ctr : Contracts) (r : DocRecord) : List Problem :=
  if (r.path.drop 1).head? = some "sop" then
    match sopScan (r.headings.map normalize_heading)
        (ctr.sop_required_headings.map normalize_heading) 0 with
    | none => []
    | some req => [⟨"sop", r.rel_path, msgSop req, none⟩]
  else []

/-- Model of `validate_sop_headings`. -/
def validate_sop_headings (records : List DocRecord) (ctr : Contracts) : List Problem :=
  records.flatMap (checkSopRecord ctr)

/-- State of the `extract_fenced_mermaid_blocks` loop. -/
structure MermState where
  inFence : Bool
  fenceLang : String
  fenceStart : Nat
  buffer : List String
  blocks : List (Nat × String)
  problems : List Problem

/-- One loop iteration of `extract_fenced_mermaid_blocks` at line `n`. -/
def mermStep (rel : String) (n : Nat) (st : MermState) (line : String) : MermState :=
  if isFenceLine line then
    if st.inFence = false then
      { st with inFence := true, fenceLang := lowerStr (pyStrip (fenceLangOf line)),
                fenceStart := n, buffer := [] }
    else if st.fenceLang = "mermaid" then
      let source := pyStrip (joinLines st.buffer)
      if source = "" then
        { st with inFence := false, fenceLang := "", buffer := [],
                  problems := st.problems
                    ++ [⟨"mermaid", rel, "empty mermaid block", some st.fenceStart⟩] }
      else
        { st with inFence := false, fenceLang := "", buffer := [],
                  blocks := st.blocks ++ [(st.fenceStart, source)] }
    else { st with inFence := false, fenceLang := "", buffer := [] }
  else if st.inFence then { st with buffer := st.buffer ++ [line] }
  else st

/-- Run the mermaid extractor loop. -/
def mermGo (rel : String) (st : MermState) (n : Nat) : List String → MermState
  | [] => st
  | l :: ls => mermGo rel (mermStep rel n st l) (n + 1) ls

/-- Model of `extract_fenced_mermaid_blocks` on body lines. -/
def extractMermaidFromLines (rel : String) (lines : List String) :
    List (Nat × String) × List Problem :=
  let st := mermGo rel ⟨false, "", 0, [], [], []⟩ 1 lines
  (st.blocks,
   st.problems
     ++ (if st.inFence then [⟨"mermaid", rel, "unclosed code fence", some st.fenceStart⟩]
         else []))

/-- Model of `extract_fenced_mermaid_blocks`. -/
def extract_fenced_mermaid_blocks (r : DocRecord) : List (Nat × String) × List Problem :=
  extractMermaidFromLines r.rel_path (pySplitlines r.body)

/-- Model of `render_mermaid_sources` over the renderer oracle. -/
def render_mermaid_sources (env : Env) (sources : List (String × Option Nat × String))
    (requireRenderer : Bool) : List Problem :=
  match env.mmdc with
  | none =>
    if requireRenderer ∧ ¬ sources.isEmpty then
      [⟨"mermaid", "mmdc", "mermaid-cli (`mmdc`) is required but not installed", none⟩]
    else []
  | some render =>
    sources.filterMap fun s =>
      (render s.2.2).map fun msg =>
        ⟨"mermaid", s.1, "render validation failed: " ++ msg, s.2.1⟩

/-- Model of `validate_mermaid`: block problems per record, asset file
problems, then render problems; the count is the number of collected
sources. -/
def validate_mermaid (records : List DocRecord) (env : Env) (requireRenderer : Bool) :
    List Problem × Nat :=
  let docProblems := records.flatMap fun r => (extract_fenced_mermaid_blocks r).2
  let docSources := records.flatMap fun r =>
    (extract_fenced_mermaid_blocks r).1.map fun b => (r.rel_path, some b.1, b.2)
  let assetProblems := env.mmdFiles.filterMap fun f =>
    if pyStrip f.2 = "" then some ⟨"mermaid", f.1, "empty .mmd diagram file", none⟩ else none
  let assetSources : List (String × Option Nat × String) := env.mmdFiles.filterMap fun f =>
    if pyStrip f.2 = "" then none else some (f.1, none, pyStrip f.2)
  let sources := docSources ++ assetSources
  (docProblems ++ assetProblems ++ render_mermaid_sources env sources requireRenderer,
   sources.length)

/-- Does a line match `^\s*(openapi|swagger)\s*:`? -/
def openapiDeclLine (line : String) : Bool :=
  let l := line.data.dropWhile isPyWs
  (l.take 7 = "openapi".data && ((l.drop 7).dropWhile isPyWs).head? == some ':')
    || (l.take 7 = "swagger".data && ((l.drop 7).dropWhile isPyWs).head? == some ':')

/-- Model of `basic_openapi_sanity_check` on a `(path, suffix, content)`
triple, the JSON library as an oracle. -/
def basic_openapi_sanity_check (env : Env) (spec : String × String × String) :
    Option String :=
  if spec.2.1 = ".json" then
    match env.jsonLoad spec.2.2 with
    | .invalid e => some ("invalid JSON: " ++ e)
    | .notDict => some "missing `openapi` or `swagger` top-level key"
    | .dict keys =>
      if keys.contains "openapi" || keys.contains "swagger" then none
      else some "missing `openapi` or `swagger` top-level key"
  else
    if (pySplitlines spec.2.2).any openapiDeclLine then none
    else some "missing `openapi:` or `swagger:` declaration"

/-- Model of `validate_openapi`. -/
def validate_openapi (env : Env) (requireValidator : Bool) : List Problem × Nat :=
  let specs := env.openapiSpecs.filter fun s =>
    s.2.1 == ".yaml" || s.2.1 == ".yml" || s.2.1 == ".json"
  if specs.isEmpty then ([], 0)
  else if requireValidator ∧ env.swaggerCli.isNone then
    ([⟨"openapi", "swagger-cli", "OpenAPI validator (`swagger-cli`) is required but not installed", none⟩],
     specs.length)
  else
    (specs.filterMap fun spec =>
      match env.swaggerCli with
      | some run => (run spec.2.2).map fun msg => Problem.mk "openapi" spec.1 msg none
      | none => (basic_openapi_sanity_check env spec).map fun err =>
          Problem.mk "openapi" spec.1 err none,
     specs.length)

/-- Model of `frontmatter_freshness_metrics`:
`(fresh, total, stale_docs)`. -/
def frontmatter_freshness_metrics (records : List DocRecord) (ctr : Contracts) (env : Env) :
    Nat × Nat × List String :=
  records.foldl
    (fun acc r =>
      match dictGet r.frontmatter "last_reviewed" with
      | some (.str s) =>
        match parse_review_date s with
        | some d =>
          if (dateOrdinal (current_date env) : Int) - (dateOrdinal d : Int)
              ≤ staleDaysOf env ctr then
            (acc.1 + 1, acc.2.1 + 1, acc.2.2)
          else (acc.1, acc.2.1 + 1, acc.2.2 ++ [r.rel_path])
        | none => acc
      | _ => acc)
    (0, 0, [])

/-- Model of `counts_by_category`. -/
def counts_by_category (records : List DocRecord) : List (String × Nat) :=
  let cats := records.map fun r =>
    match dictGet r.frontmatter "category" with
    | some (.str c) => c
    | _ => "unknown"
  (sortStrings (dedupStrings cats)).map fun c => (c, cats.count c)

/-- Two-decimal rounding of the freshness ratio (the float rounding of
the original is modelled on rationals). -/
def round2 (q : ℚ) : ℚ := (round (q * 100) : ℤ) / 100

/-- The JSON audit summary object. -/
structure AuditReport where
  generated_at : String
  document_count : Nat
  markdown_count : Nat
  counts_by_category : List (String × Nat)
  fresh_review_percent : ℚ
  stale_documents : List String
  broken_internal_links : Nat
  mermaid_block_count : Nat
  openapi_spec_count : Nat
  issue_parse : Nat
  issue_structure : Nat
  issue_frontmatter : Nat
  issue_sop : Nat
  issue_links : Nat
  issue_mermaid : Nat
  issue_openapi : Nat

/-- All problems `write_audit_report` aggregates for the exit decision. -/
def allAuditProblems (records : List DocRecord) (parseProblems : List Problem)
    (ctr : Contracts) (env : Env) : List Problem :=
  parseProblems ++ validate_structure ctr env ++ validate_frontmatter records ctr env
    ++ validate_sop_headings records ctr ++ validate_links records env.fs
    ++ (validate_mermaid records env false).1 ++ (validate_openapi env false).1

/-- Model of `write_audit_report`: the report object (written to disk
unconditionally, before the pass/fail evaluation) and the exit code. -/
def write_audit_report (records : List DocRecord) (parseProblems : List Problem)
    (ctr : Contracts) (env : Env) : AuditReport × Nat :=
  let structureProblems := validate_structure ctr env
  let frontmatterProblems := validate_frontmatter records ctr env
  let sopProblems := validate_sop_headings records ctr
  let linkProblemsAll := validate_links records env.fs
  let mermaidRes := validate_mermaid records env false
  let openapiRes := validate_openapi env false
  let metrics := frontmatter_freshness_metrics records ctr env
  let freshPercent : ℚ :=
    if metrics.2.1 = 0 then 0 else round2 ((metrics.1 : ℚ) / (metrics.2.1 : ℚ) * 100)
  let report : AuditReport :=
    { generated_at := env.now
      document_count := records.length
      markdown_count := records.length
      counts_by_category := counts_by_category records
      fresh_review_percent := freshPercent
      stale_documents := metrics.2.2
      broken_internal_links := (linkProblemsAll.filter fun p => p.check == "links").length
      mermaid_block_count := mermaidRes.2
      openapi_spec_count := openapiRes.2
      issue_parse := parseProblems.length
      issue_structure := structureProblems.length
      issue_frontmatter := frontmatterProblems.length
      issue_sop := sopProblems.length
      issue_links := linkProblemsAll.length
      issue_mermaid := mermaidRes.1.length
      issue_openapi := openapiRes.1.length }
  let allProblems := parseProblems ++ structureProblems ++ frontmatterProblems
    ++ sopProblems ++ linkProblemsAll ++ mermaidRes.1 ++ openapiRes.1
  (report, if allProblems.isEmpty then 0 else 1)

/-- Loading of one document file in `collect_docs`: the built record and
the frontmatter parse problems tagged with the relative path. -/
def collectOne (input : List String × String) : DocRecord × List Problem :=
  let sp := split_frontmatter input.2
  let rel := String.intercalate "/" input.1
  let ha := extract_headings_and_anchors sp.2.1
  (⟨input.1, rel, input.2, sp.1, sp.2.1, ha.1, ha.2, extract_links sp.2.1⟩,
   sp.2.2.map fun e => ⟨"frontmatter", rel, e, none⟩)

/-- Model of `collect_docs` over the sorted enumeration of markdown
files, each given as `(path components, raw text)`. -/
def collect_docs (inputs : List (List String × String)) :
    List DocRecord × List Problem :=
  (inputs.map fun i => (collectOne i).1, inputs.flatMap fun i => (collectOne i).2)

/-! Theorems about the embedded validator. -/

theorem findEndDelim_eq_none {ls : List String} {i : Nat}
    (h : ∀ l ∈ ls, pyStrip l ≠ "---") : findEndDelim ls i = none := by
  induction ls generalizing i with
  | nil => rfl
  | cons l rest ih =>
    simp only [findEndDelim]
    rw [if_neg (h l (List.mem_cons_self l rest))]
    exact ih (fun x hx => h x (List.mem_cons_of_mem l hx))

theorem findEndDelim_append {pre : List String} {dl : String} {post : List String} {i : Nat}
    (hpre : ∀ x ∈ pre, pyStrip x ≠ "---") (hdl : pyStrip dl = "---") :
    findEndDelim (pre ++ dl :: post) i = some (i + pre.length) := by
  induction pre generalizing i with
  | nil =>
    rw [List.nil_append,
      show findEndDelim (dl :: post) i
        = if pyStrip dl = "---" then some i else findEndDelim post (i + 1) from rfl,
      if_pos hdl]
    simp
  | cons x rest ih =>
    rw [List.cons_append,
      show findEndDelim (x :: (rest ++ dl :: post)) i
        = if pyStrip x = "---" then some i else findEndDelim (rest ++ dl :: post) (i + 1)
        from rfl,
      if_neg (hpre x (List.mem_cons_self x rest)),
      ih (fun y hy => hpre y (List.mem_cons_of_mem x hy))]
    simp only [List.length_cons, Option.some.injEq]
    omega

/-- C4 (amended): the splitter distinguishes four cases.  Text not
starting with the three sentinel characters gives the whole text as
body, empty metadata and a missing-start-delimiter error; text starting
with the sentinel characters whose first line does not strip to the bare
sentinel gives the same fallback with an invalid-start-delimiter error;
when the first line is the sentinel but no later line strips to the
sentinel, the same fallback with an unterminated-block error; otherwise
the lines strictly between the first and second sentinel lines are
parsed as metadata and everything after the second sentinel line is the
body. -/
theorem claim4_split_frontmatter (text : String) :
    (¬ pyStartsWith text "---" →
      split_frontmatter text = ([], text, ["missing frontmatter start delimiter"])) ∧
    (∀ l0 rest, pySplitlines text = l0 :: rest → pyStartsWith text "---" →
      pyStrip l0 ≠ "---" →
      split_frontmatter text = ([], text, ["invalid frontmatter start delimiter"])) ∧
    (∀ l0 rest, pySplitlines text = l0 :: rest → pyStartsWith text "---" →
      pyStrip l0 = "---" → (∀ l ∈ rest, pyStrip l ≠ "---") →
      split_frontmatter text = ([], text, ["missing frontmatter end delimiter"])) ∧
    (∀ l0 pre dl post, pySplitlines text = l0 :: (pre ++ dl :: post) →
      pyStartsWith text "---" → pyStrip l0 = "---" → pyStrip dl = "---" →
      (∀ x ∈ pre, pyStrip x ≠ "---") →
      split_frontmatter text =
        ((parse_yamlish_frontmatter (joinLines pre)).1, joinLines post,
         (parse_yamlish_frontmatter (joinLines pre)).2)) := by
  refine ⟨?_, ?_, ?_, ?_⟩
  · intro hns
    simp only [split_frontmatter, if_pos hns]
  · intro l0 rest hsplit hs hl0
    simp only [split_frontmatter, hs, not_true_eq_false, if_false, hsplit]
    rw [if_pos hl0]
  · intro l0 rest hsplit hs hl0 hrest
    simp only [split_frontmatter, hs, not_true_eq_false, if_false, hsplit]
    rw [if_neg (by simp [hl0]), findEndDelim_eq_none hrest]
  · intro l0 pre dl post hsplit hs hl0 hdl hpre
    simp only [split_frontmatter, hs, not_true_eq_false, if_false, hsplit]
    rw [if_neg (by simp [hl0]), findEndDelim_append hpre hdl]
    dsimp only
    have e1 : 1 + pre.length - 1 = pre.length := by omega
    have e2 : 1 + pre.length + 1 = pre.length + 1 + 1 := by omega
    rw [e1, e2]
    have h2 : List.take pre.length (pre ++ dl :: post) = pre := by
      rw [List.take_append_of_le_length (Nat.le_refl _), List.take_length]
    have h3 : List.drop (pre.length + 1) (pre ++ dl :: post) = post := by
      rw [show pre ++ dl :: post = (pre ++ [dl]) ++ post by simp,
        show pre.length + 1 = (pre ++ [dl]).length by simp,
        List.drop_left]
    rw [show List.drop 1 (l0 :: (pre ++ dl :: post)) = pre ++ dl :: post from rfl, h2,
      List.drop_succ_cons, h3]

/-- C4 counterexample: the text `---x\nfoo` does not begin with the
sentinel line, but the splitter reports an invalid-start-delimiter
error, not the missing-start-delimiter error the claim prescribes. -/
theorem claim4_counterexample :
    split_frontmatter "---x\nfoo" = ([], "---x\nfoo", ["invalid frontmatter start delimiter"])
    ∧ ("invalid frontmatter start delimiter" ≠ "missing frontmatter start delimiter")
    ∧ pyStrip "---x" ≠ "---" := by
  refine ⟨by rfl, by decide, by decide⟩

/-- C4 witness: the amended theorem applied to a concrete document. -/
theorem claim4_witness :
    split_frontmatter "---\nt: 1\n---\nbody" =
      ((parse_yamlish_frontmatter (joinLines ["t: 1"])).1, joinLines ["body"],
       (parse_yamlish_frontmatter (joinLines ["t: 1"])).2) :=
  (claim4_split_frontmatter "---\nt: 1\n---\nbody").2.2.2 "---" ["t: 1"] "---" ["body"]
    (by rfl) (by decide) (by decide) (by decide) (by decide)

theorem mermStep_inFence (rel : String) (n : Nat) (st : MermState) (l : String) :
    (mermStep rel n st l).inFence = if isFenceLine l then !st.inFence else st.inFence := by
  unfold mermStep
  by_cases hf : isFenceLine l
  · rw [if_pos hf, if_pos hf]
    by_cases hin : st.inFence = false
    · rw [if_pos hin, hin]
      rfl
    · have ht : st.inFence = true := by revert hin; cases st.inFence <;> simp
      rw [if_neg hin, ht]
      split
      · dsimp only
        split <;> rfl
      · rfl
  · rw [if_neg hf, if_neg hf]
    split <;> rfl

theorem mermGo_inFence (rel : String) :
    ∀ (ls : List String) (st : MermState) (n : Nat),
      (mermGo rel st n ls).inFence
        = (st.inFence ^^ decide ((ls.countP fun l => isFenceLine l) % 2 = 1)) := by
  intro ls
  induction ls with
  | nil => intro st n; simp [mermGo]
  | cons l ls ih =>
    intro st n
    rw [show mermGo rel st n (l :: ls) = mermGo rel (mermStep rel n st l) (n + 1) ls from rfl,
      ih]
    rw [mermStep_inFence]
    by_cases hf : isFenceLine l
    · rw [if_pos hf]
      have hc : (List.countP (fun l => isFenceLine l) (l :: ls))
          = (List.countP (fun l => isFenceLine l) ls) + 1 := by
        rw [List.countP_cons, if_pos hf]
      rw [hc]
      have hflip : ∀ m : Nat, decide ((m + 1) % 2 = 1) = !decide (m % 2 = 1) := by
        intro m
        rcases Nat.mod_two_eq_zero_or_one m with h | h
        · have h2 : (m + 1) % 2 = 1 := by omega
          simp [h, h2]
        · have h2 : (m + 1) % 2 = 0 := by omega
          simp [h, h2]
      rw [hflip]
      cases st.inFence <;> cases decide ((List.countP (fun l => isFenceLine l) ls) % 2 = 1) <;> rfl
    · rw [if_neg hf]
      have hc : (List.countP (fun l => isFenceLine l) (l :: ls))
          = (List.countP (fun l => isFenceLine l) ls) := by
        simp [List.countP_cons, hf]
      rw [hc]

theorem mermGo_append (rel : String) :
    ∀ (xs ys : List String) (st : MermState) (n : Nat),
      mermGo rel st n (xs ++ ys) = mermGo rel (mermGo rel st n xs) (n + xs.length) ys := by
  intro xs
  induction xs with
  | nil => intro ys st n; simp [mermGo]
  | cons x xs ih =>
    intro ys st n
    rw [List.cons_append,
      show mermGo rel st n (x :: (xs ++ ys)) = mermGo rel (mermStep rel n st x) (n + 1) (xs ++ ys)
        from rfl,
      ih,
      show mermGo rel st n (x :: xs) = mermGo rel (mermStep rel n st x) (n + 1) xs from rfl,
      show n + (x :: xs).length = (n + 1) + xs.length by simp; omega]

theorem mermGo_buffering (rel : String) :
    ∀ (ls : List String) (st : MermState) (n : Nat),
      st.inFence = true → (∀ l ∈ ls, isFenceLine l = false) →
      mermGo rel st n ls = { st with buffer := st.buffer ++ ls } := by
  intro ls
  induction ls with
  | nil => intro st n _ _; simp [mermGo]
  | cons l ls ih =>
    intro st n hin hnf
    have hf : isFenceLine l = false := hnf l (List.mem_cons_self l ls)
    rw [show mermGo rel st n (l :: ls) = mermGo rel (mermStep rel n st l) (n + 1) ls from rfl]
    have hstep : mermStep rel n st l = { st with buffer := st.buffer ++ [l] } := by
      unfold mermStep
      rw [if_neg (by simp [hf]), if_pos hin]
    rw [hstep, ih _ _ (by simp [hin]) (fun x hx => hnf x (List.mem_cons_of_mem l hx))]
    simp

/-- C10: when a document body opens a fence that is never closed before
the end of the body, the mermaid block extractor reports one extra
diagnostic with message `unclosed code fence` carrying the line number
of the opening fence, and the content from that fence to the end of the
body contributes no block: blocks and prior problems are exactly those
of the part before the unclosed fence. -/
theorem claim10_unclosed_fence (rel fenceLine : String) (pre rest : List String)
    (hf : isFenceLine fenceLine = true)
    (hpre : (pre.countP fun l => isFenceLine l) % 2 = 0)
    (hrest : ∀ l ∈ rest, isFenceLine l = false) :
    extractMermaidFromLines rel (pre ++ fenceLine :: rest) =
      ((extractMermaidFromLines rel pre).1,
       (extractMermaidFromLines rel pre).2
         ++ [⟨"mermaid", rel, "unclosed code fence", some (pre.length + 1)⟩]) := by
  have hparity : (mermGo rel ⟨false, "", 0, [], [], []⟩ 1 pre).inFence = false := by
    rw [mermGo_inFence]
    simp [hpre]
  have hopen : mermStep rel (1 + pre.length) (mermGo rel ⟨false, "", 0, [], [], []⟩ 1 pre)
        fenceLine
      = { mermGo rel ⟨false, "", 0, [], [], []⟩ 1 pre with
          inFence := true, fenceLang := lowerStr (pyStrip (fenceLangOf fenceLine)),
          fenceStart := 1 + pre.length, buffer := [] } := by
    unfold mermStep
    rw [if_pos hf, if_pos hparity]
  have hfull : mermGo rel ⟨false, "", 0, [], [], []⟩ 1 (pre ++ fenceLine :: rest)
      = { mermGo rel ⟨false, "", 0, [], [], []⟩ 1 pre with
          inFence := true, fenceLang := lowerStr (pyStrip (fenceLangOf fenceLine)),
          fenceStart := 1 + pre.length, buffer := rest } := by
    rw [mermGo_append,
      show mermGo rel (mermGo rel ⟨false, "", 0, [], [], []⟩ 1 pre) (1 + pre.length)
          (fenceLine :: rest)
        = mermGo rel
            (mermStep rel (1 + pre.length) (mermGo rel ⟨false, "", 0, [], [], []⟩ 1 pre)
              fenceLine)
            (1 + pre.length + 1) rest
        from rfl,
      hopen, mermGo_buffering rel rest _ _ rfl hrest]
    simp
  simp only [extractMermaidFromLines]
  rw [hfull, hparity]
  simp [Nat.add_comm]

/-- C10 witness: an unclosed `mermaid` fence at line 1 followed by
content yields no block and exactly the unclosed-fence diagnostic. -/
theorem claim10_witness :
    extractMermaidFromLines "docs/a.md" (["```mermaid", "graph TD"]) =
      ((extractMermaidFromLines "docs/a.md" []).1,
       (extractMermaidFromLines "docs/a.md" []).2
         ++ [⟨"mermaid", "docs/a.md", "unclosed code fence", some 1⟩]) :=
  claim10_unclosed_fence "docs/a.md" "```mermaid" [] ["graph TD"]
    (by decide) (by decide) (by decide)

theorem dictGet_dictInsert (d : Fm) (k : String) (v : Value) :
    dictGet (dictInsert d k v) k = some v := by
  induction d with
  | nil => simp [dictInsert, dictGet]
  | cons p rest ih =>
    by_cases h : p.1 = k
    · simp [dictInsert, dictGet, h]
    · simp [dictInsert, dictGet, h, ih]

theorem dictInsert_dictInsert (d : Fm) (k : String) (v w : Value) :
    dictInsert (dictInsert d k v) k w = dictInsert d k w := by
  induction d with
  | nil => simp [dictInsert]
  | cons p rest ih =>
    by_cases h : p.1 = k
    · simp [dictInsert, h]
    · simp [dictInsert, h, ih]

theorem fmGo_append :
    ∀ (xs ys : List String) (st : FmState) (idx : Nat),
      fmGo st idx (xs ++ ys) = fmGo (fmGo st idx xs) (idx + xs.length) ys := by
  intro xs
  induction xs with
  | nil => intro ys st idx; simp [fmGo]
  | cons x xs ih =>
    intro ys st idx
    rw [List.cons_append,
      show fmGo st idx (x :: (xs ++ ys)) = fmGo (fmStep idx st x) (idx + 1) (xs ++ ys) from rfl,
      ih,
      show fmGo st idx (x :: xs) = fmGo (fmStep idx st x) (idx + 1) xs from rfl,
      show idx + (x :: xs).length = (idx + 1) + xs.length by simp; omega]

theorem fmGo_listItems (k : String) (ils : List (String × String)) :
    ∀ (d0 : Fm) (e : List String) (acc : List Value) (idx : Nat),
      (∀ p ∈ ils, classifyLine p.1 = .listItem p.2) →
      fmGo ⟨dictInsert d0 k (.list acc), e, some k⟩ idx (ils.map Prod.fst)
        = ⟨dictInsert d0 k (.list (acc ++ ils.map fun p => parse_scalar p.2)), e, some k⟩ := by
  induction ils with
  | nil => intro d0 e acc idx _; simp [fmGo]
  | cons p ils ih =>
    intro d0 e acc idx hall
    have hp := hall p (List.mem_cons_self p ils)
    rw [List.map_cons,
      show fmGo ⟨dictInsert d0 k (.list acc), e, some k⟩ idx (p.1 :: ils.map Prod.fst)
        = fmGo (fmStep idx ⟨dictInsert d0 k (.list acc), e, some k⟩ p.1) (idx + 1)
            (ils.map Prod.fst) from rfl]
    have hstep : fmStep idx ⟨dictInsert d0 k (.list acc), e, some k⟩ p.1
        = ⟨dictInsert d0 k (.list (acc ++ [parse_scalar p.2])), e, some k⟩ := by
      unfold fmStep
      rw [hp]
      dsimp only
      rw [dictGet_dictInsert]
      dsimp only
      rw [dictInsert_dictInsert]
    rw [hstep, ih d0 e (acc ++ [parse_scalar p.2]) (idx + 1)
      (fun q hq => hall q (List.mem_cons_of_mem p hq))]
    simp

/-- C9: when the same key appears on several key lines of a metadata
block, the value determined by the last such line wins in the returned
mapping and the duplicate adds no diagnostic: appending a scalar key
line binds the key to that scalar; appending an inline-list key line
binds it to the parsed inline list; appending a bare list-opening key
line followed by list items binds it to the accumulated list — in every
case with the error list of the preceding lines unchanged. -/
theorem claim9_duplicate_keys :
    (∀ (ls : List String) (l k v : String), classifyLine l = .keyLine k v → v ≠ "" →
      (pyStartsWith v "[" && pyEndsWith v "]") = false →
      dictGet (parseYamlishLines (ls ++ [l])).1 k = some (parse_scalar v)
        ∧ (parseYamlishLines (ls ++ [l])).2 = (parseYamlishLines ls).2) ∧
    (∀ (ls : List String) (l k v : String), classifyLine l = .keyLine k v → v ≠ "" →
      (pyStartsWith v "[" && pyEndsWith v "]") = true →
      dictGet (parseYamlishLines (ls ++ [l])).1 k = some (.list (parse_inline_list v))
        ∧ (parseYamlishLines (ls ++ [l])).2 = (parseYamlishLines ls).2) ∧
    (∀ (ls : List String) (l k : String) (ils : List (String × String)),
      classifyLine l = .keyLine k "" →
      (∀ p ∈ ils, classifyLine p.1 = .listItem p.2) →
      dictGet (parseYamlishLines (ls ++ l :: ils.map Prod.fst)).1 k
          = some (.list (ils.map fun p => parse_scalar p.2))
        ∧ (parseYamlishLines (ls ++ l :: ils.map Prod.fst)).2 = (parseYamlishLines ls).2) := by
  refine ⟨?_, ?_, ?_⟩
  · intro ls l k v hcl hv hbr
    unfold parseYamlishLines
    rw [fmGo_append]
    rw [show fmGo (fmGo ⟨[], [], none⟩ 1 ls) (1 + ls.length) [l]
        = fmStep (1 + ls.length) (fmGo ⟨[], [], none⟩ 1 ls) l from rfl]
    have hstep : fmStep (1 + ls.length) (fmGo ⟨[], [], none⟩ 1 ls) l
        = { fmGo ⟨[], [], none⟩ 1 ls with
            data := dictInsert (fmGo ⟨[], [], none⟩ 1 ls).data k (parse_scalar v),
            clk := none } := by
      unfold fmStep
      rw [hcl]
      dsimp only
      rw [if_neg hv, if_neg (by simp [hbr])]
    rw [hstep]
    exact ⟨dictGet_dictInsert _ _ _, rfl⟩
  · intro ls l k v hcl hv hbr
    unfold parseYamlishLines
    rw [fmGo_append]
    rw [show fmGo (fmGo ⟨[], [], none⟩ 1 ls) (1 + ls.length) [l]
        = fmStep (1 + ls.length) (fmGo ⟨[], [], none⟩ 1 ls) l from rfl]
    have hstep : fmStep (1 + ls.length) (fmGo ⟨[], [], none⟩ 1 ls) l
        = { fmGo ⟨[], [], none⟩ 1 ls with
            data := dictInsert (fmGo ⟨[], [], none⟩ 1 ls).data k (.list (parse_inline_list v)),
            clk := none } := by
      unfold fmStep
      rw [hcl]
      dsimp only
      rw [if_neg hv, if_pos hbr]
    rw [hstep]
    exact ⟨dictGet_dictInsert _ _ _, rfl⟩
  · intro ls l k ils hcl hall
    unfold parseYamlishLines
    rw [fmGo_append]
    rw [show fmGo (fmGo ⟨[], [], none⟩ 1 ls) (1 + ls.length) (l :: ils.map Prod.fst)
        = fmGo (fmStep (1 + ls.length) (fmGo ⟨[], [], none⟩ 1 ls) l) (1 + ls.length + 1)
            (ils.map Prod.fst) from rfl]
    have hstep : fmStep (1 + ls.length) (fmGo ⟨[], [], none⟩ 1 ls) l
        = ⟨dictInsert (fmGo ⟨[], [], none⟩ 1 ls).data k (.list []),
           (fmGo ⟨[], [], none⟩ 1 ls).errors, some k⟩ := by
      unfold fmStep
      rw [hcl]
      dsimp only
      rw [if_pos rfl]
    rw [hstep, fmGo_listItems k ils _ _ [] _ hall]
    simp [dictGet_dictInsert]

/-- C9 witness: `a: 1` then `a: 2` yields `a = "2"` and no diagnostic. -/
theorem claim9_witness :
    dictGet (parseYamlishLines (["a: 1"] ++ ["a: 2"])).1 "a" = some (parse_scalar "2")
      ∧ (parseYamlishLines (["a: 1"] ++ ["a: 2"])).2 = (parseYamlishLines ["a: 1"]).2 :=
  claim9_duplicate_keys.1 ["a: 1"] "a: 2" "a" "2" (by decide) (by decide) (by decide)

theorem checkRecordFrontmatter_empty (ctr : Contracts) (env : Env) (r : DocRecord)
    (h : r.frontmatter = []) :
    checkRecordFrontmatter ctr env r
      = ctr.required_frontmatter.map fun f =>
          ⟨"frontmatter", r.rel_path, msgMissingField f, none⟩ := by
  unfold checkRecordFrontmatter requiredFieldProblems
  rw [h]
  have hmap : ∀ (fs : List String),
      fs.filterMap (fun f =>
        match dictGet ([] : Fm) f with
        | some _ => none
        | none => some (⟨"frontmatter", r.rel_path, msgMissingField f, none⟩ : Problem))
      = fs.map fun f => ⟨"frontmatter", r.rel_path, msgMissingField f, none⟩ := by
    intro fs
    induction fs with
    | nil => rfl
    | cons a as ihh =>
      exact congrArg
        (List.cons ⟨"frontmatter", r.rel_path, msgMissingField a, none⟩) ihh
  rw [hmap]
  simp

/-- C7: a document whose metadata block fails to parse with an empty
resulting mapping still yields a `DocRecord` in the collected corpus,
with headings, anchors and links extracted from its body, so the
heading and link checks still see it; on such a record the metadata
check emits exactly one missing-required-field diagnostic per required
field and none of the value-shape diagnostics. -/
theorem claim7_unparsed_frontmatter (ctr : Contracts) (env : Env)
    (inputs : List (List String × String)) (p : List String) (txt : String)
    (hmem : (p, txt) ∈ inputs)
    (herr : (split_frontmatter txt).2.2 ≠ [])
    (hempty : (split_frontmatter txt).1 = []) :
    ∃ rec ∈ (collect_docs inputs).1,
      rec.path = p ∧ rec.frontmatter = [] ∧ rec.body = (split_frontmatter txt).2.1 ∧
      rec.headings = (extract_headings_and_anchors rec.body).1 ∧
      rec.anchors = (extract_headings_and_anchors rec.body).2 ∧
      rec.links = extract_links rec.body ∧
      checkRecordFrontmatter ctr env rec
        = ctr.required_frontmatter.map fun f =>
            ⟨"frontmatter", rec.rel_path, msgMissingField f, none⟩ := by
  refine ⟨(collectOne (p, txt)).1, ?_, rfl, hempty, rfl, rfl, rfl, rfl, ?_⟩
  · exact List.mem_map_of_mem (fun i => (collectOne i).1) hmem
  · exact checkRecordFrontmatter_empty ctr env _ hempty

/-- C7 witness: a document with no metadata delimiter is still
collected, and for the standard required-field list the metadata check
reports exactly the missing fields. -/
theorem claim7_witness :
    ∃ rec ∈ (collect_docs [(["docs", "a.md"], "plain body")]).1,
      rec.path = ["docs", "a.md"] ∧ rec.frontmatter = []
        ∧ rec.body = (split_frontmatter "plain body").2.1
        ∧ rec.headings = (extract_headings_and_anchors rec.body).1
        ∧ rec.anchors = (extract_headings_and_anchors rec.body).2
        ∧ rec.links = extract_links rec.body
        ∧ checkRecordFrontmatter { required_frontmatter := ["title", "owner"] } {} rec
            = ["title", "owner"].map fun f =>
                ⟨"frontmatter", rec.rel_path, msgMissingField f, none⟩ :=
  claim7_unparsed_frontmatter { required_frontmatter := ["title", "owner"] } {}
    [(["docs", "a.md"], "plain body")] ["docs", "a.md"] "plain body"
    (by decide) (by decide) (by rfl)

theorem ne_of_take2 {s t : String} (h : s.data.take 2 ≠ t.data.take 2) : s ≠ t :=
  fun he => h (by rw [he])

theorem take2_msgStale (a b : Int) : (msgStale a b).data.take 2 = ['`', 'l'] := by
  unfold msgStale
  simp only [String.data_append, List.append_assoc]
  rw [List.take_append_of_le_length (by decide)]
  decide

theorem take2_msgMissing (f : String) : (msgMissingField f).data.take 2 = ['m', 'i'] := by
  unfold msgMissingField
  simp only [String.data_append, List.append_assoc]
  rw [List.take_append_of_le_length (by decide)]
  decide

theorem take2_msgCategory (ctr : Contracts) : (msgCategory ctr).data.take 2 = ['`', 'c'] := by
  unfold msgCategory
  simp only [String.data_append, List.append_assoc]
  rw [List.take_append_of_le_length (by decide)]
  decide

theorem take2_msgOwner (ctr : Contracts) : (msgOwner ctr).data.take 2 = ['`', 'o'] := by
  unfold msgOwner
  simp only [String.data_append, List.append_assoc]
  rw [List.take_append_of_le_length (by decide)]
  decide

theorem take2_msgStatus (ctr : Contracts) : (msgStatus ctr).data.take 2 = ['`', 's'] := by
  unfold msgStatus
  simp only [String.data_append, List.append_assoc]
  rw [List.take_append_of_le_length (by decide)]
  decide

theorem stale_not_mem_required (ctr : Contracts) (r : DocRecord) (a b : Int) :
    (⟨"frontmatter", r.rel_path, msgStale a b, none⟩ : Problem)
      ∉ requiredFieldProblems ctr r := by
  intro hmem
  unfold requiredFieldProblems at hmem
  rw [List.mem_filterMap] at hmem
  obtain ⟨f, -, hf⟩ := hmem
  revert hf
  split
  · intro hf
    exact Option.noConfusion hf
  · intro hf
    rw [Option.some.injEq] at hf
    have hm := congrArg Problem.message hf
    exact ne_of_take2 (by rw [take2_msgMissing, take2_msgStale]; decide) hm

theorem stale_not_mem_title (r : DocRecord) (a b : Int) :
    (⟨"frontmatter", r.rel_path, msgStale a b, none⟩ : Problem) ∉ titleProblems r := by
  intro hmem
  have hne : msgStale a b ≠ msgTitle :=
    ne_of_take2 (by rw [take2_msgStale]; decide)
  unfold titleProblems at hmem
  revert hmem
  split
  · split
    · intro hmem
      rw [List.mem_singleton] at hmem
      exact hne (congrArg Problem.message hmem)
    · intro hmem
      exact absurd hmem (List.not_mem_nil _)
  · intro hmem
    rw [List.mem_singleton] at hmem
    exact hne (congrArg Problem.message hmem)

theorem stale_not_mem_category (ctr : Contracts) (r : DocRecord) (a b : Int) :
    (⟨"frontmatter", r.rel_path, msgStale a b, none⟩ : Problem) ∉ categoryProblems ctr r := by
  intro hmem
  have hne : msgStale a b ≠ msgCategory ctr :=
    ne_of_take2 (by rw [take2_msgStale, take2_msgCategory]; decide)
  unfold categoryProblems at hmem
  revert hmem
  split
  · split
    · intro hmem
      exact absurd hmem (List.not_mem_nil _)
    · intro hmem
      rw [List.mem_singleton] at hmem
      exact hne (congrArg Problem.message hmem)
  · intro hmem
    rw [List.mem_singleton] at hmem
    exact hne (congrArg Problem.message hmem)

theorem stale_not_mem_owner (ctr : Contracts) (r : DocRecord) (a b : Int) :
    (⟨"frontmatter", r.rel_path, msgStale a b, none⟩ : Problem) ∉ ownerProblems ctr r := by
  intro hmem
  have hne : msgStale a b ≠ msgOwner ctr :=
    ne_of_take2 (by rw [take2_msgStale, take2_msgOwner]; decide)
  unfold ownerProblems at hmem
  revert hmem
  split
  · split
    · intro hmem
      exact absurd hmem (List.not_mem_nil _)
    · intro hmem
      rw [List.mem_singleton] at hmem
      exact hne (congrArg Problem.message hmem)
  · intro hmem
    rw [List.mem_singleton] at hmem
    exact hne (congrArg Problem.message hmem)

theorem stale_not_mem_status (ctr : Contracts) (r : DocRecord) (a b : Int) :
    (⟨"frontmatter", r.rel_path, msgStale a b, none⟩ : Problem) ∉ statusProblems ctr r := by
  intro hmem
  have hne : msgStale a b ≠ msgStatus ctr :=
    ne_of_take2 (by rw [take2_msgStale, take2_msgStatus]; decide)
  unfold statusProblems at hmem
  revert hmem
  split
  · split
    · intro hmem
      exact absurd hmem (List.not_mem_nil _)
    · intro hmem
      rw [List.mem_singleton] at hmem
      exact hne (congrArg Problem.message hmem)
  · intro hmem
    rw [List.mem_singleton] at hmem
    exact hne (congrArg Problem.message hmem)

theorem stale_not_mem_superseded (r : DocRecord) (a b : Int) :
    (⟨"frontmatter", r.rel_path, msgStale a b, none⟩ : Problem) ∉ supersededProblems r := by
  intro hmem
  have hne : msgStale a b ≠ msgSuperseded :=
    ne_of_take2 (by rw [take2_msgStale]; decide)
  unfold supersededProblems at hmem
  revert hmem
  split
  · split
    · split
      · intro hmem
        exact absurd hmem (List.not_mem_nil _)
      · intro hmem
        rw [List.mem_singleton] at hmem
        exact hne (congrArg Problem.message hmem)
    · intro hmem
      exact absurd hmem (List.not_mem_nil _)
  · intro hmem
    exact absurd hmem (List.not_mem_nil _)

theorem stale_not_mem_listField (f : String) (r : DocRecord) (a b : Int)
    (h1 : msgStale a b ≠ msgListField f) (h2 : msgStale a b ≠ msgListFieldStr f) :
    (⟨"frontmatter", r.rel_path, msgStale a b, none⟩ : Problem) ∉ listFieldProblems f r := by
  intro hmem
  unfold listFieldProblems at hmem
  revert hmem
  split
  · split
    · intro hmem
      rw [List.mem_singleton] at hmem
      exact h1 (congrArg Problem.message hmem)
    · split
      · intro hmem
        exact absurd hmem (List.not_mem_nil _)
      · intro hmem
        rw [List.mem_singleton] at hmem
        exact h2 (congrArg Problem.message hmem)
  · intro hmem
    rw [List.mem_singleton] at hmem
    exact h1 (congrArg Problem.message hmem)

theorem stale_not_mem_taxonomy (ctr : Contracts) (r : DocRecord) (a b : Int) :
    (⟨"frontmatter", r.rel_path, msgStale a b, none⟩ : Problem) ∉ taxonomyProblems ctr r := by
  intro hmem
  have hd1 : ("frontmatter" : String) ≠ "diataxis" := by decide
  have hd2 : ("frontmatter" : String) ≠ "adr" := by decide
  unfold taxonomyProblems at hmem
  dsimp only at hmem
  by_cases hlen : (List.drop 1 r.path).length = 1
  · rw [if_pos hlen] at hmem
    revert hmem
    split
    · split
      · intro hmem
        exact absurd hmem (List.not_mem_nil _)
      · intro hmem
        rw [List.mem_singleton] at hmem
        exact hd1 (congrArg Problem.check hmem)
    · intro hmem
      exact absurd hmem (List.not_mem_nil _)
  · rw [if_neg hlen, List.mem_append] at hmem
    rcases hmem with hmem | hmem
    · revert hmem
      split
      · intro hmem
        exact absurd hmem (List.not_mem_nil _)
      · split
        · intro hmem
          exact absurd hmem (List.not_mem_nil _)
        · split
          · split
            · intro hmem
              exact absurd hmem (List.not_mem_nil _)
            · intro hmem
              rw [List.mem_singleton] at hmem
              exact hd1 (congrArg Problem.check hmem)
          · intro hmem
            rw [List.mem_singleton] at hmem
            exact hd1 (congrArg Problem.check hmem)
    · revert hmem
      split
      · intro hmem
        rw [List.mem_singleton] at hmem
        exact hd2 (congrArg Problem.check hmem)
      · intro hmem
        exact absurd hmem (List.not_mem_nil _)

/-- C2: for a document whose `last_reviewed` value is a string that
parses as an ISO date, the metadata check emits the staleness diagnostic
exactly when the age in days of that date relative to the (possibly
environment-overridden) current date strictly exceeds the (possibly
environment-overridden) staleness threshold; in particular age
threshold+1 is flagged and age threshold is not. -/
theorem claim2_staleness (ctr : Contracts) (env : Env) (r : DocRecord) (s : String) (d : Date)
    (hs : dictGet r.frontmatter "last_reviewed" = some (.str s))
    (hd : parse_review_date s = some d) :
    ((⟨"frontmatter", r.rel_path,
        msgStale ((dateOrdinal (current_date env) : Int) - (dateOrdinal d : Int))
          (staleDaysOf env ctr), none⟩ : Problem)
      ∈ checkRecordFrontmatter ctr env r)
    ↔ (dateOrdinal (current_date env) : Int) - (dateOrdinal d : Int) > staleDaysOf env ctr := by
  set age : Int := (dateOrdinal (current_date env) : Int) - (dateOrdinal d : Int) with hage
  set sd : Int := staleDaysOf env ctr with hsd
  have hfm : r.frontmatter.isEmpty = false := by
    cases hfmc : r.frontmatter with
    | nil => rw [hfmc] at hs; exact absurd hs (by simp [dictGet])
    | cons a l => rfl
  have hrev : reviewedProblems env ctr r
      = if age > sd
        then [⟨"frontmatter", r.rel_path, msgStale age sd, none⟩]
        else [] := by
    unfold reviewedProblems
    rw [hs]
    dsimp only
    rw [hd]
  unfold checkRecordFrontmatter
  rw [if_neg (by simp [hfm])]
  constructor
  · intro hmem
    rw [List.mem_append] at hmem
    rcases hmem with hmem | hmem
    · exact absurd hmem (stale_not_mem_required ctr r age sd)
    rw [List.mem_append] at hmem
    rcases hmem with hmem | hmem
    swap
    · exact absurd hmem (stale_not_mem_taxonomy ctr r age sd)
    rw [List.mem_append] at hmem
    rcases hmem with hmem | hmem
    swap
    · exact absurd hmem (stale_not_mem_listField "invariants" r age sd
        (ne_of_take2 (by rw [take2_msgStale]; decide))
        (ne_of_take2 (by rw [take2_msgStale]; decide)))
    rw [List.mem_append] at hmem
    rcases hmem with hmem | hmem
    swap
    · exact absurd hmem (stale_not_mem_listField "audience" r age sd
        (ne_of_take2 (by rw [take2_msgStale]; decide))
        (ne_of_take2 (by rw [take2_msgStale]; decide)))
    rw [List.mem_append] at hmem
    rcases hmem with hmem | hmem
    swap
    · rw [hrev] at hmem
      by_cases hgt : age > sd
      · exact hgt
      · rw [if_neg hgt] at hmem
        exact absurd hmem (List.not_mem_nil _)
    rw [List.mem_append] at hmem
    rcases hmem with hmem | hmem
    swap
    · exact absurd hmem (stale_not_mem_superseded r age sd)
    rw [List.mem_append] at hmem
    rcases hmem with hmem | hmem
    swap
    · exact absurd hmem (stale_not_mem_status ctr r age sd)
    rw [List.mem_append] at hmem
    rcases hmem with hmem | hmem
    swap
    · exact absurd hmem (stale_not_mem_owner ctr r age sd)
    rw [List.mem_append] at hmem
    rcases hmem with hmem | hmem
    · exact absurd hmem (stale_not_mem_title r age sd)
    · exact absurd hmem (stale_not_mem_category ctr r age sd)
  · intro hgt
    apply List.mem_append_right
    apply List.mem_append_left
    apply List.mem_append_left
    apply List.mem_append_left
    apply List.mem_append_right
    rw [hrev, if_pos hgt]
    exact List.mem_singleton.mpr rfl

/-- C2 witness: threshold 180; a review 181 days old is flagged, one
exactly 180 days old is not. -/
theorem claim2_witness :
    ((⟨"frontmatter", "docs/a.md",
        msgStale ((dateOrdinal (current_date { today := ⟨2024, 6, 30⟩ }) : Int)
            - (dateOrdinal ⟨2024, 1, 1⟩ : Int))
          (staleDaysOf { today := ⟨2024, 6, 30⟩ } {}), none⟩ : Problem)
      ∈ checkRecordFrontmatter {} { today := ⟨2024, 6, 30⟩ }
          ⟨["docs", "a.md"], "docs/a.md", "", [("last_reviewed", .str "2024-01-01")],
           "", [], [], []⟩)
    ∧ ¬ ((⟨"frontmatter", "docs/a.md",
        msgStale ((dateOrdinal (current_date { today := ⟨2024, 6, 29⟩ }) : Int)
            - (dateOrdinal ⟨2024, 1, 1⟩ : Int))
          (staleDaysOf { today := ⟨2024, 6, 29⟩ } {}), none⟩ : Problem)
      ∈ checkRecordFrontmatter {} { today := ⟨2024, 6, 29⟩ }
          ⟨["docs", "a.md"], "docs/a.md", "", [("last_reviewed", .str "2024-01-01")],
           "", [], [], []⟩) := by
  constructor
  · exact (claim2_staleness {} { today := ⟨2024, 6, 30⟩ }
      ⟨["docs", "a.md"], "docs/a.md", "", [("last_reviewed", .str "2024-01-01")], "", [], [], []⟩
      "2024-01-01" ⟨2024, 1, 1⟩ (by rfl) (by rfl)).mpr (by decide)
  · intro hmem
    exact absurd ((claim2_staleness {} { today := ⟨2024, 6, 29⟩ }
      ⟨["docs", "a.md"], "docs/a.md", "", [("last_reviewed", .str "2024-01-01")], "", [], [], []⟩
      "2024-01-01" ⟨2024, 1, 1⟩ (by rfl) (by rfl)).mp hmem) (by decide)

theorem indexFrom_eq_none {l : List String} {x : String} :
    indexFrom l x = none ↔ x ∉ l := by
  induction l with
  | nil => simp [indexFrom]
  | cons y ys ih =>
    by_cases hyx : y = x
    · simp [indexFrom, hyx]
    · simp only [indexFrom, if_neg hyx]
      cases hj : indexFrom ys x with
      | none =>
        simp only [Option.map_none', true_iff]
        rw [hj] at ih
        intro hmem
        rcases List.mem_cons.mp hmem with he | hm
        · exact hyx he.symm
        · exact (ih.mp rfl) hm
      | some j =>
        simp only [Option.map_some']
        refine iff_of_false (fun hc => Option.noConfusion hc) ?_
        intro hnm
        have hx : x ∈ ys := by
          by_contra hxx
          rw [ih.mpr hxx] at hj
          exact Option.noConfusion hj
        exact hnm (List.mem_cons_of_mem y hx)

theorem indexFrom_not_mem_take {l : List String} {x : String} {i : Nat}
    (h : indexFrom l x = some i) : x ∉ l.take i := by
  induction l generalizing i with
  | nil => exact Option.noConfusion h
  | cons y ys ih =>
    by_cases hyx : y = x
    · simp only [indexFrom, if_pos hyx, Option.some.injEq] at h
      subst h
      simp
    · simp only [indexFrom, if_neg hyx] at h
      cases hj : indexFrom ys x with
      | none => rw [hj] at h; exact Option.noConfusion h
      | some j =>
        rw [hj] at h
        simp only [Option.map_some', Option.some.injEq] at h
        subst h
        rw [List.take_succ_cons]
        intro hmem
        rcases List.mem_cons.mp hmem with he | hmem2
        · exact hyx he.symm
        · exact ih hj hmem2

theorem indexFrom_drop {l : List String} {x : String} {i : Nat}
    (h : indexFrom l x = some i) : l.drop i = x :: l.drop (i + 1) := by
  induction l generalizing i with
  | nil => exact Option.noConfusion h
  | cons y ys ih =>
    by_cases hyx : y = x
    · simp only [indexFrom, if_pos hyx, Option.some.injEq] at h
      subst h
      simp [hyx]
    · simp only [indexFrom, if_neg hyx] at h
      cases hj : indexFrom ys x with
      | none => rw [hj] at h; exact Option.noConfusion h
      | some j =>
        rw [hj] at h
        simp only [Option.map_some', Option.some.injEq] at h
        subst h
        rw [List.drop_succ_cons, List.drop_succ_cons]
        exact ih hj

theorem sublist_drop_of_cons_sublist {x : String} {l m : List String} {i : Nat}
    (hsub : (x :: l).Sublist m) (hidx : indexFrom m x = some i) :
    l.Sublist (m.drop (i + 1)) := by
  obtain ⟨r₁, r₂, hm, hxr, hlr⟩ := List.cons_sublist_iff.mp hsub
  have hspec := indexFrom_not_mem_take hidx
  have hi : i < r₁.length := by
    by_contra hge
    push_neg at hge
    have hr1 : r₁ = m.take r₁.length := by
      rw [hm, List.take_append_of_le_length (Nat.le_refl _), List.take_length]
    have hr1b : r₁ = (m.take i).take r₁.length := by
      rw [List.take_take, Nat.min_eq_left hge, ← hr1]
    exact hspec (List.take_subset _ _ (hr1b ▸ hxr))
  have hr2 : r₂ = m.drop r₁.length := by
    rw [hm, List.drop_left]
  exact hlr.trans (hr2 ▸ List.drop_sublist_drop_left m (by omega))

theorem sopScan_eq_none_iff (hs : List String) :
    ∀ (req : List String) (pos : Nat),
      sopScan hs req pos = none ↔ req.Sublist (hs.drop pos) := by
  intro req
  induction req with
  | nil => intro pos; simp [sopScan]
  | cons x rest ih =>
    intro pos
    cases hidx : indexFrom (hs.drop pos) x with
    | none =>
      rw [show sopScan hs (x :: rest) pos
          = match indexFrom (hs.drop pos) x with
            | none => some x
            | some i => sopScan hs rest (pos + i + 1) from rfl, hidx]
      refine iff_of_false (by simp) ?_
      intro hsub
      exact absurd (hsub.subset (List.mem_cons_self x rest)) (indexFrom_eq_none.mp hidx)
    | some i =>
      rw [show sopScan hs (x :: rest) pos
          = match indexFrom (hs.drop pos) x with
            | none => some x
            | some i => sopScan hs rest (pos + i + 1) from rfl, hidx]
      rw [ih (pos + i + 1)]
      constructor
      · intro h
        apply List.cons_sublist_iff.mpr
        refine ⟨(hs.drop pos).take i ++ [x], (hs.drop pos).drop (i + 1), ?_, by simp, ?_⟩
        · rw [List.append_assoc, List.singleton_append, ← indexFrom_drop hidx,
            List.take_append_drop]
        · rw [List.drop_drop, show pos + (i + 1) = pos + i + 1 by omega]
          exact h
      · intro h
        have hstep := sublist_drop_of_cons_sublist h hidx
        rw [List.drop_drop, show pos + (i + 1) = pos + i + 1 by omega] at hstep
        exact hstep

theorem sopScan_eq_some (hs : List String) :
    ∀ (req : List String) (pos : Nat) (y : String),
      sopScan hs req pos = some y →
      ∃ j, ∃ hj : j < req.length,
        y = req.get ⟨j, hj⟩
          ∧ (req.take j).Sublist (hs.drop pos)
          ∧ ¬ (req.take (j + 1)).Sublist (hs.drop pos) := by
  intro req
  induction req with
  | nil => intro pos y h; exact Option.noConfusion h
  | cons x rest ih =>
    intro pos y h
    rw [show sopScan hs (x :: rest) pos
        = match indexFrom (hs.drop pos) x with
          | none => some x
          | some i => sopScan hs rest (pos + i + 1) from rfl] at h
    cases hidx : indexFrom (hs.drop pos) x with
    | none =>
      rw [hidx] at h
      simp only [Option.some.injEq] at h
      subst h
      refine ⟨0, by simp, rfl, by simp, ?_⟩
      intro hsub
      rw [List.take_succ_cons, List.take_zero] at hsub
      exact absurd (hsub.subset (List.mem_cons_self x [])) (indexFrom_eq_none.mp hidx)
    | some i =>
      rw [hidx] at h
      obtain ⟨j, hj, hy, htake, hnot⟩ := ih (pos + i + 1) y h
      refine ⟨j + 1, by simpa using Nat.succ_lt_succ hj, by simpa using hy, ?_, ?_⟩
      · rw [List.take_succ_cons]
        apply List.cons_sublist_iff.mpr
        refine ⟨(hs.drop pos).take i ++ [x], (hs.drop pos).drop (i + 1), ?_, by simp, ?_⟩
        · rw [List.append_assoc, List.singleton_append, ← indexFrom_drop hidx,
            List.take_append_drop]
        · rw [List.drop_drop, show pos + (i + 1) = pos + i + 1 by omega]
          exact htake
      · intro hsub
        rw [List.take_succ_cons] at hsub
        have hstep := sublist_drop_of_cons_sublist hsub hidx
        rw [List.drop_drop, show pos + (i + 1) = pos + i + 1 by omega] at hstep
        exact hnot hstep

/-- C5: for a document under the `sop` folder, the heading-order check
passes exactly when the normalized required heading sequence occurs in
order as a not-necessarily-contiguous subsequence of the normalized
document headings; it emits at most one diagnostic, and any diagnostic
cites the first required heading that fails: the required prefix before
it embeds as a subsequence but extending it by that heading does not. -/
theorem claim5_sop_headings (ctr : Contracts) (r : DocRecord)
    (hsop : (r.path.drop 1).head? = some "sop") :
    (checkSopRecord ctr r = []
        ↔ (ctr.sop_required_headings.map normalize_heading).Sublist
            (r.headings.map normalize_heading))
    ∧ (checkSopRecord ctr r).length ≤ 1
    ∧ (∀ p ∈ checkSopRecord ctr r,
        ∃ j, ∃ hj : j < (ctr.sop_required_headings.map normalize_heading).length,
          ((ctr.sop_required_headings.map normalize_heading).take j).Sublist
              (r.headings.map normalize_heading)
            ∧ ¬ (((ctr.sop_required_headings.map normalize_heading).take (j + 1)).Sublist
                (r.headings.map normalize_heading))
            ∧ p = ⟨"sop", r.rel_path,
                   msgSop ((ctr.sop_required_headings.map normalize_heading).get ⟨j, hj⟩),
                   none⟩) := by
  have hzero : (r.headings.map normalize_heading).drop 0 = r.headings.map normalize_heading :=
    List.drop_zero _
  unfold checkSopRecord
  rw [if_pos hsop]
  cases hscan : sopScan (r.headings.map normalize_heading)
      (ctr.sop_required_headings.map normalize_heading) 0 with
  | none =>
    refine ⟨iff_of_true rfl ?_, by simp, ?_⟩
    · have := (sopScan_eq_none_iff _ _ 0).mp hscan
      rwa [hzero] at this
    · intro p hp
      exact absurd hp (List.not_mem_nil p)
  | some y =>
    obtain ⟨j, hj, hy, htake, hnot⟩ := sopScan_eq_some _ _ 0 y hscan
    rw [hzero] at htake hnot
    refine ⟨iff_of_false (by simp) ?_, by simp, ?_⟩
    · intro hsub
      rw [← hzero] at hsub
      exact Option.noConfusion ((sopScan_eq_none_iff _ _ 0).mpr hsub ▸ hscan)
    · intro p hp
      rw [List.mem_singleton] at hp
      exact ⟨j, hj, htake, hnot, by rw [hp, hy]⟩

/-- C5 witness: required `Goal, Preconditions, Steps` against headings
`Goal, Steps` gives one diagnostic citing `Preconditions`. -/
theorem claim5_witness :
    (checkSopRecord { sop_required_headings := ["Goal", "Preconditions", "Steps"] }
        ⟨["docs", "sop", "a.md"], "docs/sop/a.md", "", [], "", ["Goal", "Steps"], [], []⟩ = []
      ↔ ((["Goal", "Preconditions", "Steps"] : List String).map normalize_heading).Sublist
          ((["Goal", "Steps"] : List String).map normalize_heading)) ∧
    (checkSopRecord { sop_required_headings := ["Goal", "Preconditions", "Steps"] }
        ⟨["docs", "sop", "a.md"], "docs/sop/a.md", "", [], "", ["Goal", "Steps"], [], []⟩).length
      ≤ 1 :=
  let res := claim5_sop_headings { sop_required_headings := ["Goal", "Preconditions", "Steps"] }
    ⟨["docs", "sop", "a.md"], "docs/sop/a.md", "", [], "", ["Goal", "Steps"], [], []⟩ (by decide)
  ⟨res.1, res.2.1⟩

/-- C1 (amended): for a non-skipped link target, the resolver applies
the `.md` and `index.md` fallbacks only when the resolved path has no
file extension: a missing extensionless path falls back to the path
with `.md` appended when that exists, else to `index.md` inside it when
that exists; a missing path with an extension gets no fallback; and
whenever the returned resolved path does not exist the link check emits
exactly one broken-link diagnostic carrying the literal target text and
the resolved path. -/
theorem claim1_broken_links :
    (∀ (fs : List (List String)) (resolved : List String),
      pexists fs resolved = false → pathSuffix resolved ≠ "" →
      resolveWithFallback fs resolved = resolved) ∧
    (∀ (fs : List (List String)) (resolved : List String),
      pexists fs resolved = false → pathSuffix resolved = "" →
      pexists fs (withMdSuffix resolved) = true →
      resolveWithFallback fs resolved = withMdSuffix resolved) ∧
    (∀ (fs : List (List String)) (resolved : List String),
      pexists fs resolved = false → pathSuffix resolved = "" →
      pexists fs (withMdSuffix resolved) = false →
      pexists fs (resolved ++ ["index.md"]) = true →
      resolveWithFallback fs resolved = resolved ++ ["index.md"]) ∧
    (∀ (records : List DocRecord) (fs : List (List String)) (record : DocRecord)
        (target : String) (line : Nat) (resolved : List String) (anchorOpt : Option String),
      resolve_markdown_link fs record.path target = (some resolved, anchorOpt, none) →
      pexists fs resolved = false →
      linkProblems records fs record ⟨target, line⟩
        = [⟨"links", record.rel_path, brokenMsg target resolved, some line⟩]) := by
  refine ⟨?_, ?_, ?_, ?_⟩
  · intro fs resolved hex hsuf
    unfold resolveWithFallback
    rw [if_neg (by simp [hex]), if_neg hsuf]
  · intro fs resolved hex hsuf hmd
    unfold resolveWithFallback
    rw [if_neg (by simp [hex]), if_pos hsuf]
    dsimp only
    rw [if_pos hmd]
  · intro fs resolved hex hsuf hmd hidx
    unfold resolveWithFallback
    rw [if_neg (by simp [hex]), if_pos hsuf]
    dsimp only
    rw [if_neg (by simp [hmd]), if_pos hidx]
  · intro records fs record target line resolved anchorOpt hres hex
    unfold linkProblems
    rw [hres]
    dsimp only
    rw [if_pos (by simp [hex])]

/-- C1 counterexample: for the link `./missing.txt` from `docs/a.md`,
both readings of appending the default extension (`missing.txt.md` and
`missing.md`) exist in the file system, yet the resolver attempts no
fallback because the resolved path has an extension, and the link check
emits the broken-link diagnostic the claim says the fallback would have
avoided. -/
theorem claim1_counterexample :
    pexists [["docs"], ["docs", "a.md"], ["docs", "missing.txt.md"], ["docs", "missing.md"]]
        (withMdSuffix ["docs", "missing.txt"]) = true
    ∧ pexists [["docs"], ["docs", "a.md"], ["docs", "missing.txt.md"], ["docs", "missing.md"]]
        ["docs", "missing.md"] = true
    ∧ resolve_markdown_link
        [["docs"], ["docs", "a.md"], ["docs", "missing.txt.md"], ["docs", "missing.md"]]
        ["docs", "a.md"] "./missing.txt"
      = (some ["docs", "missing.txt"], none, none)
    ∧ validate_links
        [⟨["docs", "a.md"], "docs/a.md", "", [], "", [], [], [⟨"./missing.txt", 1⟩]⟩]
        [["docs"], ["docs", "a.md"], ["docs", "missing.txt.md"], ["docs", "missing.md"]]
      = [⟨"links", "docs/a.md", brokenMsg "./missing.txt" ["docs", "missing.txt"], some 1⟩] := by
  refine ⟨by decide, by decide, by rfl, by rfl⟩

/-- C1 witness: the scenario of the claim, a link `./missing.md` from
`docs/a.md` with `docs/missing.md` absent, yields exactly one broken
link diagnostic naming `./missing.md`. -/
theorem claim1_witness :
    linkProblems [⟨["docs", "a.md"], "docs/a.md", "", [], "", [], [], [⟨"./missing.md", 1⟩]⟩]
        [["docs"], ["docs", "a.md"]]
        ⟨["docs", "a.md"], "docs/a.md", "", [], "", [], [], [⟨"./missing.md", 1⟩]⟩
        ⟨"./missing.md", 1⟩
      = [⟨"links", "docs/a.md", brokenMsg "./missing.md" ["docs", "missing.md"], some 1⟩]
    ∧ validate_links
        [⟨["docs", "a.md"], "docs/a.md", "", [], "", [], [], [⟨"./missing.md", 1⟩]⟩]
        [["docs"], ["docs", "a.md"]]
      = [⟨"links", "docs/a.md", brokenMsg "./missing.md" ["docs", "missing.md"], some 1⟩] :=
  ⟨claim1_broken_links.2.2.2
      [⟨["docs", "a.md"], "docs/a.md", "", [], "", [], [], [⟨"./missing.md", 1⟩]⟩]
      [["docs"], ["docs", "a.md"]]
      ⟨["docs", "a.md"], "docs/a.md", "", [], "", [], [], [⟨"./missing.md", 1⟩]⟩
      "./missing.md" 1 ["docs", "missing.md"] none (by rfl) (by rfl),
   by rfl⟩

/-- C8: the audit-report command computes the summary object for every
input (writing it unconditionally, before the pass/fail evaluation) and
exits non-zero exactly when at least one diagnostic was produced; on a
corpus with zero documents with the other checks clean, the report
carries document count 0, freshness percent 0, an empty stale list, and
the exit code is 0. -/
theorem claim8_audit_report :
    (∀ (records : List DocRecord) (parseProblems : List Problem) (ctr : Contracts) (env : Env),
      (write_audit_report records parseProblems ctr env).2
        = if allAuditProblems records parseProblems ctr env = [] then 0 else 1) ∧
    (∀ (ctr : Contracts) (env : Env),
      validate_structure ctr env = [] → env.mmdFiles = [] → env.openapiSpecs = [] →
      (write_audit_report [] [] ctr env).1.document_count = 0
        ∧ (write_audit_report [] [] ctr env).1.fresh_review_percent = 0
        ∧ (write_audit_report [] [] ctr env).1.stale_documents = []
        ∧ (write_audit_report [] [] ctr env).2 = 0) := by
  have hexit : ∀ (records : List DocRecord) (parseProblems : List Problem) (ctr : Contracts)
      (env : Env),
      (write_audit_report records parseProblems ctr env).2
        = if (allAuditProblems records parseProblems ctr env).isEmpty then 0 else 1 :=
    fun _ _ _ _ => rfl
  constructor
  · intro records pp ctr env
    rw [hexit]
    by_cases h : allAuditProblems records pp ctr env = []
    · rw [if_pos h, if_pos (by rw [h]; rfl)]
    · rw [if_neg h, if_neg (fun hc => h (List.isEmpty_iff.mp hc))]
  · intro ctr env hstruct hmmd hoas
    have hm : (validate_mermaid [] env false).1 = [] := by
      unfold validate_mermaid
      rw [hmmd]
      cases hmc : env.mmdc with
      | none => simp [render_mermaid_sources, hmc]
      | some f => simp [render_mermaid_sources, hmc]
    have ho : (validate_openapi env false).1 = [] := by
      unfold validate_openapi
      rw [hoas]
      rfl
    have hA : allAuditProblems [] [] ctr env = [] := by
      unfold allAuditProblems
      rw [hstruct, hm, ho]
      rfl
    refine ⟨rfl, rfl, rfl, ?_⟩
    rw [hexit, hA]
    rfl

/-- C8 witness: the theorem applied to a concrete empty corpus and
clean environment. -/
theorem claim8_witness :
    (write_audit_report [] [] {} {}).1.document_count = 0
      ∧ (write_audit_report [] [] {} {}).1.fresh_review_percent = 0
      ∧ (write_audit_report [] [] {} {}).1.stale_documents = []
      ∧ (write_audit_report [] [] {} {}).2 = 0 :=
  claim8_audit_report.2 {} {} (by rfl) (by rfl) (by rfl)

theorem decide_mod_two_flip (m : Nat) : decide ((m + 1) % 2 = 1) = !decide (m % 2 = 1) := by
  rcases Nat.mod_two_eq_zero_or_one m with h | h
  · have h2 : (m + 1) % 2 = 1 := by omega
    simp [h, h2]
  · have h2 : (m + 1) % 2 = 0 := by omega
    simp [h, h2]

theorem haStep_inFence (st : HAState) (l : String) :
    (haStep st l).inFence = if isFenceLine l then !st.inFence else st.inFence := by
  unfold haStep
  by_cases hf : isFenceLine l
  · rw [if_pos hf, if_pos hf]
  · rw [if_neg hf, if_neg hf]
    split
    · rfl
    · split
      · rfl
      · dsimp only
        split
        · rfl
        · rfl

theorem haGo_append : ∀ (xs ys : List String) (st : HAState),
    haGo st (xs ++ ys) = haGo (haGo st xs) ys := by
  intro xs
  induction xs with
  | nil => intro ys st; simp [haGo]
  | cons x xs ih =>
    intro ys st
    rw [List.cons_append,
      show haGo st (x :: (xs ++ ys)) = haGo (haStep st x) (xs ++ ys) from rfl,
      ih,
      show haGo st (x :: xs) = haGo (haStep st x) xs from rfl]

theorem haGo_inFence : ∀ (ls : List String) (st : HAState),
    (haGo st ls).inFence
      = (st.inFence ^^ decide ((ls.countP fun l => isFenceLine l) % 2 = 1)) := by
  intro ls
  induction ls with
  | nil => intro st; simp [haGo]
  | cons l ls ih =>
    intro st
    rw [show haGo st (l :: ls) = haGo (haStep st l) ls from rfl, ih, haStep_inFence]
    by_cases hf : isFenceLine l
    · rw [if_pos hf,
        show (List.countP (fun l => isFenceLine l) (l :: ls))
          = (List.countP (fun l => isFenceLine l) ls) + 1 by rw [List.countP_cons]; simp [hf],
        decide_mod_two_flip]
      cases st.inFence <;> cases decide ((List.countP (fun l => isFenceLine l) ls) % 2 = 1) <;> rfl
    · rw [if_neg hf,
        show (List.countP (fun l => isFenceLine l) (l :: ls))
          = (List.countP (fun l => isFenceLine l) ls) by rw [List.countP_cons]; simp [hf]]

theorem linksGo_cons (inF : Bool) (n : Nat) (x : String) (rest : List String) :
    linksGo inF n (x :: rest)
      = if isFenceLine x then linksGo (!inF) (n + 1) rest
        else if inF then linksGo inF (n + 1) rest
        else ((lineLinkTargets x).map fun t => LinkRef.mk (cleanTarget t) n)
              ++ linksGo inF (n + 1) rest := rfl

theorem linksGo_append : ∀ (xs ys : List String) (inF : Bool) (n : Nat),
    linksGo inF n (xs ++ ys)
      = linksGo inF n xs
        ++ linksGo (inF ^^ decide ((xs.countP fun l => isFenceLine l) % 2 = 1))
             (n + xs.length) ys := by
  intro xs
  induction xs with
  | nil => intro ys inF n; simp [linksGo]
  | cons x xs ih =>
    intro ys inF n
    rw [List.cons_append]
    by_cases hf : isFenceLine x
    · rw [show linksGo inF n (x :: (xs ++ ys)) = linksGo (!inF) (n + 1) (xs ++ ys) by
          rw [linksGo_cons, if_pos hf],
        ih,
        show linksGo inF n (x :: xs) = linksGo (!inF) (n + 1) xs by
          rw [linksGo_cons, if_pos hf],
        show (List.countP (fun l => isFenceLine l) (x :: xs))
          = (List.countP (fun l => isFenceLine l) xs) + 1 by rw [List.countP_cons]; simp [hf],
        decide_mod_two_flip,
        show n + (x :: xs).length = (n + 1) + xs.length by simp; omega,
        show (inF ^^ !decide ((List.countP (fun l => isFenceLine l) xs) % 2 = 1))
          = ((!inF) ^^ decide ((List.countP (fun l => isFenceLine l) xs) % 2 = 1)) by
          cases inF <;> cases decide ((List.countP (fun l => isFenceLine l) xs) % 2 = 1) <;> rfl]
    · by_cases hin : inF
      · rw [show linksGo inF n (x :: (xs ++ ys)) = linksGo inF (n + 1) (xs ++ ys) by
            rw [linksGo_cons, if_neg (by simp [hf]), if_pos hin],
          ih,
          show linksGo inF n (x :: xs) = linksGo inF (n + 1) xs by
            rw [linksGo_cons, if_neg (by simp [hf]), if_pos hin],
          show (List.countP (fun l => isFenceLine l) (x :: xs))
            = (List.countP (fun l => isFenceLine l) xs) by rw [List.countP_cons]; simp [hf],
          show n + (x :: xs).length = (n + 1) + xs.length by simp; omega]
      · rw [show linksGo inF n (x :: (xs ++ ys))
            = ((lineLinkTargets x).map fun t => LinkRef.mk (cleanTarget t) n)
                ++ linksGo inF (n + 1) (xs ++ ys) by
            rw [linksGo_cons, if_neg (by simp [hf]), if_neg hin],
          ih,
          show linksGo inF n (x :: xs)
            = ((lineLinkTargets x).map fun t => LinkRef.mk (cleanTarget t) n)
                ++ linksGo inF (n + 1) xs by
            rw [linksGo_cons, if_neg (by simp [hf]), if_neg hin],
          show (List.countP (fun l => isFenceLine l) (x :: xs))
            = (List.countP (fun l => isFenceLine l) xs) by rw [List.countP_cons]; simp [hf],
          show n + (x :: xs).length = (n + 1) + xs.length by simp; omega,
          List.append_assoc]

/-- C3: a line lying inside a fenced region (odd number of fence
markers before it, with the matching closing fence occurring later)
contributes nothing to the extracted headings, the anchor slugs, or the
link references: replacing it by any other non-fence line leaves both
extraction results unchanged, even if the line matches the heading or
link pattern. -/
theorem claim3_fenced_content (pre post : List String) (l l2 : String)
    (hodd : (pre.countP fun s => isFenceLine s) % 2 = 1)
    (hl : isFenceLine l = false) (hl2 : isFenceLine l2 = false)
    (hclose : ∃ c ∈ post, isFenceLine c = true) :
    extractHeadingsAnchorsFromLines (pre ++ l :: post)
        = extractHeadingsAnchorsFromLines (pre ++ l2 :: post)
      ∧ extractLinksFromLines (pre ++ l :: post) = extractLinksFromLines (pre ++ l2 :: post) := by
  constructor
  · unfold extractHeadingsAnchorsFromLines
    rw [haGo_append, haGo_append]
    have hfence : (haGo ⟨false, [], fun _ => 0, []⟩ pre).inFence = true := by
      rw [haGo_inFence]
      simp [hodd]
    have hskip : ∀ s : String, isFenceLine s = false →
        haStep (haGo ⟨false, [], fun _ => 0, []⟩ pre) s
          = haGo ⟨false, [], fun _ => 0, []⟩ pre := by
      intro s hs
      unfold haStep
      rw [if_neg (by simp [hs]), if_pos hfence]
    rw [show haGo (haGo ⟨false, [], fun _ => 0, []⟩ pre) (l :: post)
        = haGo (haStep (haGo ⟨false, [], fun _ => 0, []⟩ pre) l) post from rfl,
      show haGo (haGo ⟨false, [], fun _ => 0, []⟩ pre) (l2 :: post)
        = haGo (haStep (haGo ⟨false, [], fun _ => 0, []⟩ pre) l2) post from rfl,
      hskip l hl, hskip l2 hl2]
  · unfold extractLinksFromLines
    rw [linksGo_append, linksGo_append]
    have hpar : (false ^^ decide ((pre.countP fun l => isFenceLine l) % 2 = 1)) = true := by
      simp [hodd]
    rw [hpar]
    rw [show linksGo true (1 + pre.length) (l :: post)
        = linksGo true (1 + pre.length + 1) post by
        rw [linksGo_cons, if_neg (by simp [hl]), if_pos rfl],
      show linksGo true (1 + pre.length) (l2 :: post)
        = linksGo true (1 + pre.length + 1) post by
        rw [linksGo_cons, if_neg (by simp [hl2]), if_pos rfl]]

/-- C3 witness: inside a closed fence, a heading-and-link line behaves
exactly like a blank line. -/
theorem claim3_witness :
    extractHeadingsAnchorsFromLines (["```"] ++ "# Heading [x](./a.md)" :: ["```", "# Real"])
        = extractHeadingsAnchorsFromLines (["```"] ++ "" :: ["```", "# Real"])
      ∧ extractLinksFromLines (["```"] ++ "# Heading [x](./a.md)" :: ["```", "# Real"])
        = extractLinksFromLines (["```"] ++ "" :: ["```", "# Real"]) :=
  claim3_fenced_content ["```"] ["```", "# Real"] "# Heading [x](./a.md)" ""
    (by decide) (by decide) (by decide) ⟨"```", by decide⟩

theorem toNat_ofNat_small {n : Nat} (h1 : 97 ≤ n) (h2 : n ≤ 122) :
    (Char.ofNat n).toNat = n := by
  have hv : n.isValidChar := Or.inl (by omega)
  rw [Char.ofNat, dif_pos hv]
  simp [Char.ofNatAux, Char.toNat, UInt32.toNat, BitVec.toNat_ofNatLt]

theorem lowerChar_idem (c : Char) : lowerChar (lowerChar c) = lowerChar c := by
  by_cases h : 65 ≤ c.toNat ∧ c.toNat ≤ 90
  · have h1 : lowerChar c = Char.ofNat (c.toNat + 32) := by
      unfold lowerChar
      rw [if_pos h]
    have ht : (Char.ofNat (c.toNat + 32)).toNat = c.toNat + 32 :=
      toNat_ofNat_small (by omega) (by omega)
    rw [h1]
    unfold lowerChar
    rw [if_neg (by rw [ht]; omega)]
  · have h1 : lowerChar c = c := by
      unfold lowerChar
      rw [if_neg h]
    rw [h1, h1]

theorem isWordChar_not_ws {c : Char} (h : isWordChar c = true) : isPyWs c = false := by
  by_contra hc
  have hws : isPyWs c = true := by revert hc; cases isPyWs c <;> simp
  simp only [isPyWs, Bool.or_eq_true, decide_eq_true_eq] at hws
  rcases hws with ((((h1 | h1) | h1) | h1) | h1) | h1 <;> (subst h1; exact absurd h (by decide))

theorem isWordChar_ne_backtick {c : Char} (h : isWordChar c = true) : c ≠ '`' := by
  intro he
  subst he
  exact absurd h (by decide)

theorem dropWhile_eq_self_of_head {p : Char → Bool} (l : List Char)
    (h : ∀ c, l.head? = some c → p c = false) : l.dropWhile p = l := by
  cases l with
  | nil => rfl
  | cons c cs =>
    rw [List.dropWhile_cons, if_neg (by simp [h c rfl])]

theorem dropTrailing_eq_self_of_getLast {p : Char → Bool} (l : List Char)
    (h : ∀ c, l.getLast? = some c → p c = false) : dropTrailing p l = l := by
  unfold dropTrailing
  rw [dropWhile_eq_self_of_head _ (by
      intro c hc
      rw [List.head?_reverse] at hc
      exact h c hc),
    List.reverse_reverse]

theorem head?_dropWhile {p : Char → Bool} :
    ∀ (l : List Char) (c : Char), (l.dropWhile p).head? = some c → p c = false := by
  intro l
  induction l with
  | nil => intro c h; exact Option.noConfusion h
  | cons x xs ih =>
    intro c h
    rw [List.dropWhile_cons] at h
    by_cases hx : p x
    · rw [if_pos hx] at h
      exact ih c h
    · rw [if_neg hx] at h
      simp only [List.head?_cons, Option.some.injEq] at h
      rw [← h]
      revert hx
      cases p x <;> simp

theorem head?_of_prefixOf {l1 l2 : List Char} {c : Char}
    (h : l1.IsPrefix l2) (hh : l1.head? = some c) : l2.head? = some c := by
  obtain ⟨t, rfl⟩ := h
  cases l1 with
  | nil => exact Option.noConfusion hh
  | cons a as =>
    simp only [List.head?_cons, Option.some.injEq] at hh
    subst hh
    rfl

theorem dropTrailing_prefixOf (p : Char → Bool) (l : List Char) :
    (dropTrailing p l).IsPrefix l := by
  have h : (dropTrailing p l).reverse.IsSuffix l.reverse := by
    unfold dropTrailing
    rw [List.reverse_reverse]
    exact List.dropWhile_suffix p
  exact List.reverse_suffix.mp h

theorem mem_dropTrailing {p : Char → Bool} {l : List Char} {c : Char}
    (h : c ∈ dropTrailing p l) : c ∈ l := by
  unfold dropTrailing at h
  rw [List.mem_reverse] at h
  exact List.mem_reverse.mp ((List.dropWhile_sublist p).subset h)

theorem map_eq_self_of {f : Char → Char} :
    ∀ (l : List Char), (∀ c ∈ l, f c = c) → l.map f = l := by
  intro l h
  rw [List.map_congr_left h]
  simp

theorem collapseRunsGo_cons (isRun : Char → Bool) (out : Char) (b : Bool) (c : Char)
    (cs : List Char) :
    collapseRunsGo isRun out b (c :: cs)
      = if isRun c then
          (if b then collapseRunsGo isRun out true cs
           else out :: collapseRunsGo isRun out true cs)
        else c :: collapseRunsGo isRun out false cs := rfl

theorem collapseRunsGo_eq_self {isRun : Char → Bool} {out : Char} :
    ∀ (l : List Char) (b : Bool), (∀ c ∈ l, isRun c = false) →
      collapseRunsGo isRun out b l = l := by
  intro l
  induction l with
  | nil => intro b _; rfl
  | cons c cs ih =>
    intro b h
    rw [collapseRunsGo_cons, if_neg (by simp [h c (List.mem_cons_self c cs)]),
      ih false (fun x hx => h x (List.mem_cons_of_mem c hx))]

theorem collapseRunsGo_mem {isRun : Char → Bool} {out : Char} :
    ∀ (l : List Char) (b : Bool) (c : Char),
      c ∈ collapseRunsGo isRun out b l → c = out ∨ (c ∈ l ∧ isRun c = false) := by
  intro l
  induction l with
  | nil => intro b c h; exact absurd h (List.not_mem_nil c)
  | cons x xs ih =>
    intro b c h
    rw [collapseRunsGo_cons] at h
    by_cases hx : isRun x
    · rw [if_pos hx] at h
      by_cases hb : b
      · rw [if_pos hb] at h
        rcases ih true c h with h1 | ⟨h1, h2⟩
        · exact Or.inl h1
        · exact Or.inr ⟨List.mem_cons_of_mem x h1, h2⟩
      · rw [if_neg hb] at h
        rcases List.mem_cons.mp h with h1 | h1
        · exact Or.inl h1
        · rcases ih true c h1 with h2 | ⟨h2, h3⟩
          · exact Or.inl h2
          · exact Or.inr ⟨List.mem_cons_of_mem x h2, h3⟩
    · rw [if_neg hx] at h
      rcases List.mem_cons.mp h with h1 | h1
      · subst h1
        exact Or.inr ⟨List.mem_cons_self c xs, by revert hx; cases isRun c <;> simp⟩
      · rcases ih false c h1 with h2 | ⟨h2, h3⟩
        · exact Or.inl h2
        · exact Or.inr ⟨List.mem_cons_of_mem x h2, h3⟩

theorem collapseDash_chain :
    ∀ (l : List Char),
      List.Chain' (fun a b => ¬(a = '-' ∧ b = '-'))
          (collapseRunsGo (fun c => c = '-') '-' false l)
        ∧ List.Chain' (fun a b => ¬(a = '-' ∧ b = '-'))
            (collapseRunsGo (fun c => c = '-') '-' true l)
        ∧ (collapseRunsGo (fun c => c = '-') '-' true l).head? ≠ some '-' := by
  intro l
  induction l with
  | nil => exact ⟨List.chain'_nil, List.chain'_nil, by simp [collapseRunsGo]⟩
  | cons c cs ih =>
    obtain ⟨ih1, ih2, ih3⟩ := ih
    by_cases hc : c = '-'
    · subst hc
      constructor
      · rw [collapseRunsGo_cons, if_pos (by simp), if_neg (by simp)]
        exact List.chain'_cons'.mpr
          ⟨fun y hy => fun ⟨_, hy2⟩ => ih3 (by rw [hy2] at hy; exact hy), ih2⟩
      · constructor
        · rw [collapseRunsGo_cons, if_pos (by simp), if_pos rfl]
          exact ih2
        · rw [collapseRunsGo_cons, if_pos (by simp), if_pos rfl]
          exact ih3
    · constructor
      · rw [collapseRunsGo_cons, if_neg (by simp [hc])]
        exact List.chain'_cons'.mpr ⟨fun y _ => fun ⟨hc2, _⟩ => hc hc2, ih1⟩
      · constructor
        · rw [collapseRunsGo_cons, if_neg (by simp [hc])]
          exact List.chain'_cons'.mpr ⟨fun y _ => fun ⟨hc2, _⟩ => hc hc2, ih1⟩
        · rw [collapseRunsGo_cons, if_neg (by simp [hc])]
          simp [hc]

theorem collapseDash_eq_self :
    ∀ (l : List Char),
      List.Chain' (fun a b => ¬(a = '-' ∧ b = '-')) l →
      (collapseRunsGo (fun c => c = '-') '-' false l = l
        ∧ (l.head? ≠ some '-' → collapseRunsGo (fun c => c = '-') '-' true l = l)) := by
  intro l
  induction l with
  | nil => intro _; exact ⟨rfl, fun _ => rfl⟩
  | cons c cs ih =>
    intro hch
    obtain ⟨hhead, hch2⟩ := List.chain'_cons'.mp hch
    obtain ⟨ih1, ih2⟩ := ih hch2
    by_cases hc : c = '-'
    · subst hc
      constructor
      · rw [collapseRunsGo_cons, if_pos (by simp), if_neg (by simp)]
        have hcs : cs.head? ≠ some '-' := by
          intro hh
          exact hhead '-' hh ⟨rfl, rfl⟩
        rw [ih2 hcs]
      · intro hh
        exact absurd (rfl : ('-' :: cs).head? = some '-') hh
    · constructor
      · rw [collapseRunsGo_cons, if_neg (by simp [hc]), ih1]
      · intro _
        rw [collapseRunsGo_cons, if_neg (by simp [hc]), ih1]

theorem dropWhile_eq_self_of_all {p : Char → Bool} (l : List Char)
    (h : ∀ c ∈ l, p c = false) : l.dropWhile p = l := by
  apply dropWhile_eq_self_of_head
  intro c hc
  cases l with
  | nil => exact Option.noConfusion hc
  | cons a as =>
    simp only [List.head?_cons, Option.some.injEq] at hc
    exact h c (hc ▸ List.mem_cons_self a as)

theorem dropTrailing_eq_self_of_all {p : Char → Bool} (l : List Char)
    (h : ∀ c ∈ l, p c = false) : dropTrailing p l = l := by
  unfold dropTrailing
  rw [dropWhile_eq_self_of_all _ (fun c hc => h c (List.mem_reverse.mp hc)),
    List.reverse_reverse]

theorem slugifyChars_def (m : List Char) :
    slugifyChars m
      = dropTrailing (fun c => c = '-')
          ((collapseRunsGo (fun c => c = '-') '-' false
            (collapseRunsGo isPyWs '-' false
              ((((pyStripChars m).map lowerChar).filter fun c => c ≠ '`').filter
                fun c => isWordChar c || isPyWs c || c = '-'))).dropWhile
            fun c => c = '-') := rfl

theorem slugifyChars_mem (l : List Char) :
    ∀ c ∈ slugifyChars l, c = '-' ∨ (isWordChar c = true ∧ lowerChar c = c) := by
  intro c hc
  rw [slugifyChars_def l] at hc
  have hce := (List.dropWhile_sublist _).subset (mem_dropTrailing hc)
  rcases collapseRunsGo_mem _ _ _ hce with h1 | ⟨h1, h2⟩
  · exact Or.inl h1
  · rcases collapseRunsGo_mem _ _ _ h1 with h3 | ⟨h3, h4⟩
    · exact absurd h3 (by simpa using h2)
    · have h5 := List.mem_filter.mp h3
      have h6 := List.mem_filter.mp h5.1
      obtain ⟨orig, -, horig⟩ := List.mem_map.mp h6.1
      have hlower : lowerChar c = c := by
        rw [← horig]
        exact lowerChar_idem orig
      have hword : isWordChar c = true := by
        have hp := h5.2
        simp only [Bool.or_eq_true, decide_eq_true_eq] at hp
        rcases hp with (hw | hws) | hdsh
        · exact hw
        · rw [h4] at hws
          exact absurd hws (by simp)
        · exact absurd hdsh (by simpa using h2)
      exact Or.inr ⟨hword, hlower⟩

theorem slugifyChars_chain (l : List Char) :
    List.Chain' (fun a b => ¬(a = '-' ∧ b = '-')) (slugifyChars l) := by
  rw [slugifyChars_def l]
  exact List.Chain'.prefix
    ((collapseDash_chain _).1.suffix (List.dropWhile_suffix _))
    (dropTrailing_prefixOf _ _)

theorem slugifyChars_head (l : List Char) :
    ∀ c, (slugifyChars l).head? = some c → c ≠ '-' := by
  intro c hc
  rw [slugifyChars_def l] at hc
  have h1 := head?_of_prefixOf (dropTrailing_prefixOf _ _) hc
  have h2 := head?_dropWhile _ c h1
  simpa using h2

theorem slugifyChars_getLast (l : List Char) :
    ∀ c, (slugifyChars l).getLast? = some c → c ≠ '-' := by
  intro c hc
  rw [slugifyChars_def l] at hc
  unfold dropTrailing at hc
  rw [List.getLast?_reverse] at hc
  have h2 := head?_dropWhile _ c hc
  simpa using h2

theorem slugifyChars_idem (l : List Char) :
    slugifyChars (slugifyChars l) = slugifyChars l := by
  have hnws : ∀ c ∈ slugifyChars l, isPyWs c = false := by
    intro c hcm
    rcases slugifyChars_mem l c hcm with h1 | ⟨h1, -⟩
    · subst h1
      decide
    · exact isWordChar_not_ws h1
  have s1 : pyStripChars (slugifyChars l) = slugifyChars l := by
    unfold pyStripChars
    rw [dropWhile_eq_self_of_all _ hnws, dropTrailing_eq_self_of_all _ hnws]
  have s2 : (slugifyChars l).map lowerChar = slugifyChars l := by
    apply map_eq_self_of
    intro c hcm
    rcases slugifyChars_mem l c hcm with h1 | ⟨-, h2⟩
    · subst h1
      decide
    · exact h2
  have s3 : ((slugifyChars l).filter fun c => c ≠ '`') = slugifyChars l := by
    apply List.filter_eq_self.mpr
    intro c hcm
    rcases slugifyChars_mem l c hcm with h1 | ⟨h1, -⟩
    · subst h1
      decide
    · simpa using isWordChar_ne_backtick h1
  have s4 : ((slugifyChars l).filter fun c => isWordChar c || isPyWs c || c = '-')
      = slugifyChars l := by
    apply List.filter_eq_self.mpr
    intro c hcm
    rcases slugifyChars_mem l c hcm with h1 | ⟨h1, -⟩
    · subst h1
      decide
    · simp [h1]
  have s5 : collapseRunsGo isPyWs '-' false (slugifyChars l) = slugifyChars l :=
    collapseRunsGo_eq_self _ false hnws
  have s6 : collapseRunsGo (fun c => c = '-') '-' false (slugifyChars l) = slugifyChars l :=
    (collapseDash_eq_self _ (slugifyChars_chain l)).1
  have s7 : ((slugifyChars l).dropWhile fun c => c = '-') = slugifyChars l := by
    apply dropWhile_eq_self_of_head
    intro c hc
    simpa using slugifyChars_head l c hc
  have s8 : dropTrailing (fun c => c = '-') (slugifyChars l) = slugifyChars l := by
    apply dropTrailing_eq_self_of_getLast
    intro c hc
    simpa using slugifyChars_getLast l c hc
  rw [slugifyChars_def (slugifyChars l), s1, s2, s3, s4, s5, s6, s7, s8]

theorem countsAfter_cons (c : String → Nat) (t : String) (ts : List String) :
    countsAfter c (t :: ts)
      = if slugify_heading t = "" then countsAfter c ts
        else
          countsAfter
            (fun k => if k = slugify_heading t then c (slugify_heading t) + 1 else c k) ts := rfl

theorem anchorTrace_cons (c : String → Nat) (t : String) (ts : List String) :
    anchorTrace c (t :: ts)
      = if slugify_heading t = "" then anchorTrace c ts
        else
          (if c (slugify_heading t) = 0 then slugify_heading t
           else slugify_heading t ++ "-" ++ toString (c (slugify_heading t)))
            :: anchorTrace
                (fun k => if k = slugify_heading t then c (slugify_heading t) + 1 else c k)
                ts := rfl

theorem countsAfter_apply :
    ∀ (ts : List String) (c : String → Nat) (base : String), base ≠ "" →
      countsAfter c ts base
        = c base + ts.countP fun u => slugify_heading u == base := by
  intro ts
  induction ts with
  | nil => intro c base _; simp [countsAfter]
  | cons t ts ih =>
    intro c base hbase
    rw [countsAfter_cons, List.countP_cons]
    by_cases hb : slugify_heading t = ""
    · rw [if_pos hb, ih c base hbase]
      have hne : (slugify_heading t == base) = false := by
        rw [hb]
        exact beq_eq_false_iff_ne.mpr fun he => hbase he.symm
      rw [hne]
      simp
    · rw [if_neg hb]
      by_cases heq : slugify_heading t = base
      · rw [ih _ base hbase, if_pos heq.symm,
          show (slugify_heading t == base) = true from beq_iff_eq.mpr heq, heq]
        simp
        omega
      · rw [ih _ base hbase, if_neg fun hc => heq hc.symm,
          beq_eq_false_iff_ne.mpr heq]
        simp

theorem anchorTrace_append :
    ∀ (ts1 ts2 : List String) (c : String → Nat),
      anchorTrace c (ts1 ++ ts2)
        = anchorTrace c ts1 ++ anchorTrace (countsAfter c ts1) ts2 := by
  intro ts1
  induction ts1 with
  | nil => intro ts2 c; simp [anchorTrace, countsAfter]
  | cons t ts1 ih =>
    intro ts2 c
    rw [List.cons_append, anchorTrace_cons, anchorTrace_cons, countsAfter_cons]
    by_cases hb : slugify_heading t = ""
    · rw [if_pos hb, if_pos hb, if_pos hb, ih]
    · rw [if_neg hb, if_neg hb, if_neg hb, ih, List.cons_append]

theorem headerTexts_cons (inF : Bool) (l : String) (ls : List String) :
    headerTexts inF (l :: ls)
      = if isFenceLine l then headerTexts (!inF) ls
        else if inF then headerTexts inF ls
        else
          match headerMatch l with
          | none => headerTexts inF ls
          | some t => t :: headerTexts inF ls := rfl

theorem haGo_spec :
    ∀ (ls : List String) (st : HAState),
      (haGo st ls).headings = st.headings ++ headerTexts st.inFence ls
        ∧ (haGo st ls).counts = countsAfter st.counts (headerTexts st.inFence ls)
        ∧ (haGo st ls).anchors
            = (anchorTrace st.counts (headerTexts st.inFence ls)).foldl setInsert st.anchors := by
  intro ls
  induction ls with
  | nil =>
    intro st
    exact ⟨by simp [haGo, headerTexts], by rfl, by rfl⟩
  | cons x ls ih =>
    intro st
    rw [show haGo st (x :: ls) = haGo (haStep st x) ls from rfl]
    by_cases hf : isFenceLine x
    · have hstep : haStep st x = { st with inFence := !st.inFence } := by
        unfold haStep
        rw [if_pos hf]
      rw [hstep, headerTexts_cons, if_pos hf]
      exact ih { st with inFence := !st.inFence }
    · by_cases hin : st.inFence
      · have hstep : haStep st x = st := by
          unfold haStep
          rw [if_neg (by simp [hf]), if_pos hin]
        rw [hstep, headerTexts_cons, if_neg (by simp [hf]), if_pos hin]
        exact ih st
      · cases hm : headerMatch x with
        | none =>
          have hstep : haStep st x = st := by
            unfold haStep
            rw [if_neg (by simp [hf]), if_neg hin, hm]
          rw [hstep, headerTexts_cons, if_neg (by simp [hf]), if_neg hin, hm]
          exact ih st
        | some txt =>
          by_cases hb : slugify_heading txt = ""
          · have hstep : haStep st x = { st with headings := st.headings ++ [txt] } := by
              unfold haStep
              rw [if_neg (by simp [hf]), if_neg hin, hm]
              dsimp only
              rw [if_pos hb]
            rw [hstep, headerTexts_cons, if_neg (by simp [hf]), if_neg hin, hm]
            obtain ⟨ih1, ih2, ih3⟩ := ih { st with headings := st.headings ++ [txt] }
            refine ⟨?_, ?_, ?_⟩
            · rw [ih1]
              simp
            · rw [countsAfter_cons, if_pos hb]
              exact ih2
            · rw [anchorTrace_cons, if_pos hb]
              exact ih3
          · have hstep : haStep st x
                = { st with
                    headings := st.headings ++ [txt],
                    counts := fun k =>
                      if k = slugify_heading txt then st.counts (slugify_heading txt) + 1
                      else st.counts k,
                    anchors := setInsert st.anchors
                      (if st.counts (slugify_heading txt) = 0 then slugify_heading txt
                       else slugify_heading txt ++ "-"
                              ++ toString (st.counts (slugify_heading txt))) } := by
              unfold haStep
              rw [if_neg (by simp [hf]), if_neg hin, hm]
              dsimp only
              rw [if_neg hb]
            rw [headerTexts_cons, if_neg (by simp [hf]), if_neg hin, hm, hstep]
            obtain ⟨ih1, ih2, ih3⟩ := ih
              { st with
                headings := st.headings ++ [txt],
                counts := fun k =>
                  if k = slugify_heading txt then st.counts (slugify_heading txt) + 1
                  else st.counts k,
                anchors := setInsert st.anchors
                  (if st.counts (slugify_heading txt) = 0 then slugify_heading txt
                   else slugify_heading txt ++ "-"
                          ++ toString (st.counts (slugify_heading txt))) }
            refine ⟨?_, ?_, ?_⟩
            · rw [ih1]
              simp
            · rw [ih2, countsAfter_cons, if_neg hb]
            · rw [ih3, anchorTrace_cons, if_neg hb]
              rfl

/-- C6: slug generation is idempotent, and within one document the
anchor assigned to a heading whose non-empty base slug already occurred
n times among the earlier headings is `slug-n` (the first occurrence
keeps the bare slug); the extractor output is exactly this assignment,
with the anchor set accumulated over the fence-filtered heading texts. -/
theorem claim6_slug_anchors :
    (∀ s : String, slugify_heading (slugify_heading s) = slugify_heading s) ∧
    (∀ (ts : List String) (t : String), slugify_heading t ≠ "" →
      anchorTrace (fun _ => 0) (ts ++ [t])
        = anchorTrace (fun _ => 0) ts
          ++ [if (ts.countP fun u => slugify_heading u == slugify_heading t) = 0
              then slugify_heading t
              else slugify_heading t ++ "-"
                    ++ toString (ts.countP fun u => slugify_heading u == slugify_heading t)]) ∧
    (∀ ls : List String,
      (extractHeadingsAnchorsFromLines ls).2
          = (anchorTrace (fun _ => 0) (headerTexts false ls)).foldl setInsert []
        ∧ (extractHeadingsAnchorsFromLines ls).1 = headerTexts false ls) := by
  refine ⟨?_, ?_, ?_⟩
  · intro s
    exact congrArg String.mk (slugifyChars_idem s.data)
  · intro ts t hb
    rw [anchorTrace_append]
    congr 1
    rw [anchorTrace_cons, if_neg hb,
      countsAfter_apply ts _ _ hb]
    simp [anchorTrace]
  · intro ls
    refine ⟨(haGo_spec ls ⟨false, [], fun _ => 0, []⟩).2.2, ?_⟩
    have h1 := (haGo_spec ls ⟨false, [], fun _ => 0, []⟩).1
    simpa using h1

/-- C6 witness: two identical heading texts yield `slug` and `slug-1`. -/
theorem claim6_witness :
    anchorTrace (fun _ => 0) (["A"] ++ ["A"])
      = anchorTrace (fun _ => 0) ["A"]
        ++ [if ((["A"] : List String).countP fun u => slugify_heading u == slugify_heading "A")
              = 0
            then slugify_heading "A"
            else slugify_heading "A" ++ "-"
                  ++ toString
                      ((["A"] : List String).countP fun u =>
                        slugify_heading u == slugify_heading "A")] :=
  claim6_slug_anchors.2.1 ["A"] "A" (by decide)

end DocsValidate
